import Mathlib

/-!
# vaultchuck: correlation of renamed pipeline parameters

A shallow embedding of `main.go`: the placeholder pattern `interpolationRegex`,
the per-diff correlation loop of `Command.Execute`, the orphan check
`checkOrphaned`, and the path derivation `Command.paramPath`.

Go strings are modelled by `String` (sequences of Unicode scalar values); the
library functions the program calls (`regexp`, `strings.SplitN`, `path.Join`)
are transcribed to the extent the program uses them.
-/

namespace Vaultchuck

/-! ## The placeholder pattern `\(\((!?[-\.\w\pL]+)\)\)` -/

/-- The class `\w` of Go regular expressions: `[0-9A-Za-z_]`. -/
def isWordChar (c : Char) : Bool :=
  c.isAlphanum || c == '_'

/-- The bracket class `[-\.\w\pL]`; `pL` is the Unicode letter table `\pL`. -/
def isNameChar (pL : Char → Bool) (c : Char) : Bool :=
  c == '-' || c == '.' || isWordChar c || pL c

/-- Whether the input continues with the closing `\)\)`. -/
def closes : List Char → Bool
  | ')' :: ')' :: _ => true
  | _ => false

/-- The greedy repetition `[-\.\w\pL]+` followed by `\)\)`: the text the
repetition consumed, longer runs tried first. -/
def matchName (pL : Char → Bool) : List Char → Option (List Char)
  | [] => none
  | c :: cs =>
    if isNameChar pL c then
      match matchName pL cs with
      | some r => some (c :: r)
      | none => if closes cs then some [c] else none
    else none

/-- The capture group `(!?[-\.\w\pL]+)` followed by `\)\)`: the optional `!`
is taken first when present, and given up when the rest then fails. -/
def matchGroup (pL : Char → Bool) : List Char → Option (List Char)
  | [] => none
  | c :: cs =>
    if c = '!' then
      match matchName pL cs with
      | some r => some ('!' :: r)
      | none => matchName pL (c :: cs)
    else matchName pL (c :: cs)

/-- The whole pattern anchored at the head of the input: the text of capture
group 1. -/
def matchHere (pL : Char → Bool) : List Char → Option (List Char)
  | '(' :: '(' :: cs => matchGroup pL cs
  | _ => none

/-- Leftmost match of the (unanchored) pattern: capture group 1 of the first
position at which the pattern matches. -/
def findSubmatch (pL : Char → Bool) : List Char → Option (List Char)
  | [] => none
  | c :: cs =>
    match matchHere pL (c :: cs) with
    | some g => some g
    | none => findSubmatch pL cs

/-- The call `interpolationRegex.FindStringSubmatch(s)`: `none` for Go's `nil`,
otherwise the matched text (index 0) and capture group 1 (index 1). -/
def FindStringSubmatch (pL : Char → Bool) (s : String) : Option (String × String) :=
  (findSubmatch pL s.data).map fun g => (⟨'(' :: '(' :: g ++ [')', ')']⟩, ⟨g⟩)

/-- The call `interpolationRegex.MatchString(s)`: the pattern occurs somewhere
in `s`. -/
def MatchString (pL : Char → Bool) (s : String) : Bool :=
  (findSubmatch pL s.data).isSome

/-- A sample letter table for evaluating the pattern on concrete inputs: the
Latin letters `A-Z`, `a-z` and the Latin-1 letters `U+00C0`-`U+00FF` other than
the two operators `U+00D7` and `U+00F7`. -/
def latinLetter (c : Char) : Bool :=
  c.isAlpha || (0xC0 ≤ c.toNat && c.toNat ≤ 0xFF && c.toNat != 0xD7 && c.toNat != 0xF7)

/-! ## `strings.SplitN` with a one-character separator -/

/-- The position of the first `sep` (`strings.Index`) as the pair of the text
before it and the text after it; `none` when `sep` does not occur. -/
def cut (sep : Char) : List Char → Option (List Char × List Char)
  | [] => none
  | c :: cs =>
    if c = sep then some ([], cs)
    else (cut sep cs).map fun p => (c :: p.1, p.2)

/-- The call `strings.SplitN(s, sep, n)` for `n ≥ 0` on character lists. -/
def splitN (sep : Char) : List Char → Nat → List (List Char)
  | _, 0 => []
  | s, 1 => [s]
  | s, n + 2 =>
    match cut sep s with
    | none => [s]
    | some (a, rest) => a :: splitN sep rest (n + 1)

/-- The call `strings.SplitN(s, ".", 2)`. -/
def SplitN (s : String) (sep : Char) (n : Nat) : List String :=
  (splitN sep s.data n).map String.mk

/-- Lines 117-123 of `Execute`: the pair `(keyName, fieldName)` derived from
the name captured on the after side. -/
def deriveNames (name : String) : String × String :=
  match SplitN name '.' 2 with
  | [k, f] => (k, f)
  | k :: _ => (k, "value")
  | [] => ("", "value")

/-! ## `path.Join` and `path.Clean` -/

/-- The `..` case of `path.Clean` on the output buffer, kept in reverse: drop
the last byte, then keep dropping while more than `dotdot` bytes remain and the
byte just dropped is not `/`. -/
def backtrack (dotdot : Nat) : List Char → List Char
  | [] => []
  | c :: out => if out.length > dotdot && c != '/' then backtrack dotdot out else out

/-- The main loop of `path.Clean`: `rest` is the unread input `path[r:]`, `out`
the output buffer in reverse, `dotdot` the index `..` must not backtrack past.
Every iteration reads at least one byte, so `rest.length` iterations suffice. -/
def cleanLoop (rooted : Bool) : Nat → List Char → List Char → Nat → List Char
  | 0, _, out, _ => out
  | _ + 1, [], out, _ => out
  | fuel + 1, c :: rest, out, dotdot =>
    if c = '/' then
      cleanLoop rooted fuel rest out dotdot
    else if c = '.' ∧ (rest = [] ∨ rest.head? = some '/') then
      cleanLoop rooted fuel rest out dotdot
    else if c = '.' ∧ rest.head? = some '.' ∧
        (rest.tail = [] ∨ rest.tail.head? = some '/') then
      if out.length > dotdot then
        cleanLoop rooted fuel rest.tail (backtrack dotdot out) dotdot
      else if !rooted then
        let out1 := '.' :: '.' :: (if out.length > 0 then '/' :: out else out)
        cleanLoop rooted fuel rest.tail out1 out1.length
      else
        cleanLoop rooted fuel rest.tail out dotdot
    else
      let out1 :=
        if (rooted && out.length != 1) || (!rooted && out.length != 0) then '/' :: out
        else out
      cleanLoop rooted fuel ((c :: rest).dropWhile (· != '/'))
        (((c :: rest).takeWhile (· != '/')).reverse ++ out1) dotdot

/-- The function `path.Clean` on character lists. -/
def cleanChars (p : List Char) : List Char :=
  match p with
  | [] => ['.']
  | c :: rest =>
    let out :=
      if c = '/' then cleanLoop true rest.length rest ['/'] 1
      else cleanLoop false (c :: rest).length (c :: rest) [] 0
    if out = [] then ['.'] else out.reverse

/-- The buffer `path.Join` builds: elements are appended with a `/` before each
one once the buffer is not empty, and empty elements are dropped while it is. -/
def joinBuf : List Char → List (List Char) → List Char
  | buf, [] => buf
  | buf, e :: es =>
    if buf ≠ [] ∨ e ≠ [] then
      joinBuf ((if buf ≠ [] then buf ++ ['/'] else buf) ++ e) es
    else joinBuf buf es

/-- The function `path.Join`. -/
def pathJoin (elem : List String) : String :=
  if (elem.map String.length).sum = 0 then ""
  else ⟨cleanChars (joinBuf [] (elem.map String.data))⟩

/-! ## The data model -/

/-- Modelled from the spec: the type `yaml.Node` of the spiff library, a tagged
value that is a scalar (string, number, bool), an ordered sequence of nodes, or
a mapping from string keys to nodes. -/
inductive ConfigNode where
  | str (s : String)
  | num (n : Int)
  | bool (b : Bool)
  | seq (xs : List ConfigNode)
  | map (kvs : List (String × ConfigNode))

/-- The type assertion `n.Value().(string)`. -/
def ConfigNode.asString : ConfigNode → Option String
  | .str s => some s
  | _ => none

/-- The Go-native value `n.Value()` as it is stored in a secret record. -/
def ConfigNode.Value (n : ConfigNode) : ConfigNode := n

/-- Modelled from the spec: the type `compare.Diff` of the spiff library; `none`
is Go's `nil` node. -/
structure Diff where
  A : Option ConfigNode
  B : Option ConfigNode
  Path : List String

/-- Lookup `m[k]` in a Go map kept as an association list. -/
def mapGet {α : Type} : List (String × α) → String → Option α
  | [], _ => none
  | (k1, v) :: m, k => if k1 = k then some v else mapGet m k

/-- The store `m[k] = v` in a Go map kept as an association list. -/
def mapSet {α : Type} : List (String × α) → String → α → List (String × α)
  | [], k, v => [(k, v)]
  | (k1, v1) :: m, k, v => if k1 = k then (k, v) :: m else (k1, v1) :: mapSet m k v

/-- A secret record `map[string]interface{}`: field name to value. -/
abbrev Fields := List (String × ConfigNode)

/-- The accumulator `vaultValues`: secret name to record. -/
abbrev VaultValues := List (String × Fields)

/-- The entry `vaultValues[secretName][fieldName]`, when present. -/
def VaultValues.entry (vv : VaultValues) (secretName fieldName : String) : Option ConfigNode :=
  (mapGet vv secretName).bind fun fields => mapGet fields fieldName

/-- The fields of `Command` that `Execute` uses after parsing its inputs. -/
structure Command where
  PathPrefix : String
  TeamName : String
  PipelineName : String
  TeamParams : List String
  DryRun : Bool

/-- The loop of `Command.isTeamParam` over `cmd.TeamParams`. -/
def isTeamParamLoop (param : String) : List String → Bool
  | [] => false
  | p :: ps => if param = p then true else isTeamParamLoop param ps

/-- The method `Command.isTeamParam`. -/
def Command.isTeamParam (cmd : Command) (param : String) : Bool :=
  isTeamParamLoop param cmd.TeamParams

/-- The method `Command.paramPath`. -/
def Command.paramPath (cmd : Command) (param : String) : String :=
  if cmd.isTeamParam param then
    pathJoin [cmd.PathPrefix, cmd.TeamName, param]
  else
    pathJoin [cmd.PathPrefix, cmd.TeamName, cmd.PipelineName, param]

/-! ## The correlation loop of `Execute` -/

/-- The lines `Execute` prints with `log.Println`. -/
inductive Event where
  | skipUnrelated (path : String)
  | skipNotParamA (path : String)
  | skipNotParamB (path : String)
  | skipNoValue (path : String)
  | wouldWrite (param path : String)
  | writing (param path : String)

/-- The two ways the loop stops the process: `log.Fatalln` in `checkOrphaned`,
and the nil dereference of `b.Value()` there. -/
inductive Abort where
  | fatal (path value : String)
  | nilDeref

/-- The state of the loop: the accumulator and the lines printed so far. -/
structure State where
  vaultValues : VaultValues
  log : List Event

/-- The function `checkOrphaned`. -/
def checkOrphaned (pL : Char → Bool) (path : String) (a b : Option ConfigNode) :
    Except Abort Unit :=
  match a with
  | none =>
    match b with
    | none => .error .nilDeref
    | some nb =>
      match nb.Value.asString with
      | some strB =>
        if MatchString pL strB then .error (.fatal path strB) else .ok ()
      | none => .ok ()
  | some _ => .ok ()

/-- Lines 125-131: the store `vaultValues[keyName][fieldName] = v`, creating the
record of `keyName` when it has none. The record is a Go map, shared by
reference with `vaultValues[keyName]`. -/
def storeField (vv : VaultValues) (keyName fieldName : String) (v : ConfigNode) : VaultValues :=
  match mapGet vv keyName with
  | some fields => mapSet vv keyName (mapSet fields fieldName v)
  | none => mapSet vv keyName (mapSet [] fieldName v)

/-- One iteration of the loop `for _, diff := range diffs` of `Execute`. -/
def processDiff (pL : Char → Bool) (params : List (String × ConfigNode)) (st : State)
    (diff : Diff) : Except Abort State :=
  let path := ".".intercalate diff.Path
  match diff.A, diff.B with
  | some a, some b =>
    match a.Value.asString with
    | none => .ok st
    | some strA =>
      match b.Value.asString with
      | none => .ok st
      | some strB =>
        match FindStringSubmatch pL strA with
        | none => .ok { st with log := st.log ++ [.skipNotParamA path] }
        | some aParam =>
          match FindStringSubmatch pL strB with
          | none => .ok { st with log := st.log ++ [.skipNotParamB path] }
          | some bParam =>
            match mapGet params aParam.2 with
            | none => .ok { st with log := st.log ++ [.skipNoValue path] }
            | some value =>
              let names := deriveNames bParam.2
              .ok { st with vaultValues := storeField st.vaultValues names.1 names.2 value.Value }
  | _, _ =>
    match checkOrphaned pL path diff.A diff.B with
    | .error e => .error e
    | .ok _ =>
      match checkOrphaned pL path diff.B diff.A with
      | .error e => .error e
      | .ok _ => .ok { st with log := st.log ++ [.skipUnrelated path] }

/-- The loop `for _, diff := range diffs` of `Execute`. -/
def correlate (pL : Char → Bool) (params : List (String × ConfigNode)) :
    State → List Diff → Except Abort State
  | st, [] => .ok st
  | st, d :: ds =>
    match processDiff pL params st d with
    | .error e => .error e
    | .ok st1 => correlate pL params st1 ds

/-! ## The write loop and the whole run -/

/-- How a run of `Execute` ends. -/
inductive Exit where
  | ok
  | error (err : String)
  | fatal (path value : String)
  | nilDeref
  | badParams

/-- What a run did: how it ended, the calls `logical.Write(path, fields)` it
issued in order, and the lines it printed (kept for runs that reach the write
loop). -/
structure Run where
  exit : Exit
  writes : List (String × Fields)
  log : List Event

/-- The secret sink `logical.Write`: from the writes issued before and the
current path and fields, the error it returns, if any. -/
abbrev Sink := List (String × Fields) → String → Fields → Option String

/-- The loop `for param, fields := range vaultValues` of `Execute`. Go leaves
the order of a map range unspecified; the records are visited in the order the
association list holds them. -/
def writeLoop (cmd : Command) (sink : Sink) :
    List (String × Fields) → List (String × Fields) → List Event → Run
  | [], ws, log => ⟨.ok, ws, log⟩
  | (param, fields) :: rest, ws, log =>
    let path := cmd.paramPath param
    if cmd.DryRun then
      writeLoop cmd sink rest ws (log ++ [.wouldWrite param path])
    else
      match sink ws path fields with
      | some err => ⟨.error err, ws ++ [(path, fields)], log ++ [.writing param path]⟩
      | none => writeLoop cmd sink rest (ws ++ [(path, fields)]) (log ++ [.writing param path])

/-- The method `Command.Execute` from line 60 on, given the parsed parameters
document, the list `compare.Compare(before, after)` and the sink; reading and
parsing the three files and creating the Vault client are taken to succeed. -/
def Execute (pL : Char → Bool) (cmd : Command) (paramsNode : ConfigNode) (sink : Sink)
    (diffs : List Diff) : Run :=
  match paramsNode.Value with
  | .map params =>
    match correlate pL params ⟨[], []⟩ diffs with
    | .error (.fatal path value) => ⟨.fatal path value, [], []⟩
    | .error .nilDeref => ⟨.nilDeref, [], []⟩
    | .ok st => writeLoop cmd sink st.vaultValues [] st.log
  | _ => ⟨.badParams, [], []⟩

/-! ## Placeholder-bearing values -/

mutual
/-- A value that bears a placeholder: a string scalar in which the pattern
occurs, or a sequence or mapping that holds such a string at any depth. -/
def ConfigNode.bearsPlaceholder (pL : Char → Bool) : ConfigNode → Bool
  | .str s => MatchString pL s
  | .num _ => false
  | .bool _ => false
  | .seq xs => bearsPlaceholderSeq pL xs
  | .map kvs => bearsPlaceholderMap pL kvs
/-- Some element of the sequence bears a placeholder. -/
def bearsPlaceholderSeq (pL : Char → Bool) : List ConfigNode → Bool
  | [] => false
  | x :: xs => x.bearsPlaceholder pL || bearsPlaceholderSeq pL xs
/-- Some value of the mapping bears a placeholder. -/
def bearsPlaceholderMap (pL : Char → Bool) : List (String × ConfigNode) → Bool
  | [] => false
  | (_, x) :: kvs => x.bearsPlaceholder pL || bearsPlaceholderMap pL kvs
end

/-! ## Vocabulary for the path claims -/

/-- The call `strings.Join(elem, "/")` on character lists. -/
def slashJoin : List (List Char) → List Char
  | [] => []
  | [e] => e
  | e :: es => e ++ '/' :: slashJoin es

/-- A plain name: not empty, without `/`, and neither `.` nor `..`. -/
def plainName (s : String) : Bool :=
  s != "" && !s.data.contains '/' && s != "." && s != ".."

/-- A clean rooted path other than the root: it starts with `/`, `path.Clean`
leaves it as it is, and it is not `/` itself. -/
def cleanRooted (s : String) : Bool :=
  s.data.head? == some '/' && cleanChars s.data == s.data && s != "/"

/-! ## Vocabulary for the claims on the whole pass -/

/-- A store into the accumulator: secret name, field name and value. -/
abbrev Target := String × String × ConfigNode

/-- What the loop body stores for a diff: when both sides are strings in which
extraction finds a placeholder and the before-name is a key of the parameters,
the secret name and field name derived from the after-name with the value of
that parameter; `none` for every other diff. -/
def Diff.target (pL : Char → Bool) (params : List (String × ConfigNode)) (d : Diff) :
    Option Target :=
  match d.A, d.B with
  | some a, some b =>
    match a.asString, b.asString with
    | some strA, some strB =>
      match FindStringSubmatch pL strA, FindStringSubmatch pL strB with
      | some aParam, some bParam =>
        (mapGet params aParam.2).map fun value =>
          ((deriveNames bParam.2).1, (deriveNames bParam.2).2, value.Value)
      | _, _ => none
    | _, _ => none
  | _, _ => none

/-- How the loop body stops on a diff, if it does: the nil dereference when both
sides are absent, the fatal exit when one side is absent and the other is a
string in which the pattern occurs. -/
def Diff.abort (pL : Char → Bool) (d : Diff) : Option Abort :=
  match d.A, d.B with
  | none, none => some .nilDeref
  | none, some n =>
    match n.asString with
    | some s => if MatchString pL s then some (.fatal (".".intercalate d.Path) s) else none
    | none => none
  | some n, none =>
    match n.asString with
    | some s => if MatchString pL s then some (.fatal (".".intercalate d.Path) s) else none
    | none => none
  | some _, some _ => none

/-- A placeholder string in the strict sense of the specification: the whole
scalar is one placeholder reference, `((name))` or `((!name))`; text before or
after the reference, or a second reference, makes it something else. -/
def isPlaceholder (pL : Char → Bool) (s : String) : Bool :=
  match matchHere pL s.data with
  | some g => s.data == '(' :: '(' :: (g ++ [')', ')'])
  | none => false

/-- An orphan: a structural diff (exactly one side absent) whose present side is
a string scalar in which the placeholder pattern occurs. -/
def Diff.isOrphan (pL : Char → Bool) (d : Diff) : Bool :=
  match d.A, d.B with
  | none, some (.str s) => MatchString pL s
  | some (.str s), none => MatchString pL s
  | _, _ => false

/-- The accumulator after a store, or as it was when there is none. -/
def applyTarget : Option Target → VaultValues → VaultValues
  | none, vv => vv
  | some (k, f, v), vv => storeField vv k f v

/-- The accumulator after a list of stores, in order. -/
def storeAll : List Target → VaultValues → VaultValues
  | [], vv => vv
  | t :: ts, vv => storeAll ts (storeField vv t.1 t.2.1 t.2.2)

/-- Two accumulators that are the same Go map: the same secret names, and under
each the same fields with the same values. -/
def VaultValues.sameMap (vv1 vv2 : VaultValues) : Prop :=
  ∀ secretName, (mapGet vv1 secretName).isSome = (mapGet vv2 secretName).isSome ∧
    ∀ fieldName, vv1.entry secretName fieldName = vv2.entry secretName fieldName

/-- The secret name and path a line of the write loop names, for the lines
`would write` and `writing`. -/
def Event.writePair : Event → Option (String × String)
  | .wouldWrite param path => some (param, path)
  | .writing param path => some (param, path)
  | _ => none

/-! ## Lemmas on the placeholder pattern -/

theorem matchName_cons (pL : Char → Bool) (c : Char) (cs : List Char) :
    matchName pL (c :: cs) =
      if isNameChar pL c then
        match matchName pL cs with
        | some r => some (c :: r)
        | none => if closes cs then some [c] else none
      else none := by
  rw [matchName]

theorem matchName_close_none (pL : Char → Bool) :
    matchName pL [')', ')'] = none := by
  simp [matchName, closes]

theorem matchName_append (pL : Char → Bool) (post : List Char)
    (hpost : matchName pL (')' :: ')' :: post) = none) :
    ∀ name : List Char, name ≠ [] → (∀ c ∈ name, isNameChar pL c = true) →
      matchName pL (name ++ ')' :: ')' :: post) = some name
  | [], h, _ => absurd rfl h
  | [c], _, hc => by
    have h1 : isNameChar pL c = true := hc c (by simp)
    show matchName pL (c :: ')' :: ')' :: post) = some [c]
    rw [matchName_cons, hpost]
    simp [h1, closes]
  | c :: d :: cs, _, hc => by
    have h1 : isNameChar pL c = true := hc c (by simp)
    have ih := matchName_append pL post hpost (d :: cs) (by simp)
      (fun x hx => hc x (List.mem_cons_of_mem _ hx))
    show matchName pL (c :: ((d :: cs) ++ ')' :: ')' :: post)) = some (c :: d :: cs)
    rw [matchName_cons, ih]
    simp [h1]

theorem matchName_isSome (pL : Char → Bool) (post : List Char) :
    ∀ name : List Char, name ≠ [] → (∀ c ∈ name, isNameChar pL c = true) →
      (matchName pL (name ++ ')' :: ')' :: post)).isSome = true
  | [], h, _ => absurd rfl h
  | [c], _, hc => by
    have h1 : isNameChar pL c = true := hc c (by simp)
    show (matchName pL (c :: ')' :: ')' :: post)).isSome = true
    rw [matchName_cons]
    cases matchName pL (')' :: ')' :: post) <;> simp [h1, closes]
  | c :: d :: cs, _, hc => by
    have h1 : isNameChar pL c = true := hc c (by simp)
    have ih := matchName_isSome pL post (d :: cs) (by simp)
      (fun x hx => hc x (List.mem_cons_of_mem _ hx))
    obtain ⟨r, hr⟩ := Option.isSome_iff_exists.mp ih
    show (matchName pL (c :: ((d :: cs) ++ ')' :: ')' :: post))).isSome = true
    rw [matchName_cons, hr]
    simp [h1]

/-- When `)` is not in the bracket class, no name starts at a `)`. -/
theorem matchName_paren_none (pL : Char → Bool) (hp : pL ')' = false) (post : List Char) :
    matchName pL (')' :: post) = none := by
  rw [matchName_cons]
  have : isNameChar pL ')' = false := by
    simp [isNameChar, isWordChar, hp]
  simp [this]

theorem matchGroup_append (pL : Char → Bool) (post : List Char)
    (hpost : matchName pL (')' :: ')' :: post) = none)
    (name : List Char) (hne : name ≠ []) (hc : ∀ c ∈ name, isNameChar pL c = true) :
    matchGroup pL (name ++ ')' :: ')' :: post) = some name := by
  have hname := matchName_append pL post hpost name hne hc
  cases name with
  | nil => exact absurd rfl hne
  | cons c cs =>
    show matchGroup pL (c :: (cs ++ ')' :: ')' :: post)) = some (c :: cs)
    rw [matchGroup]
    by_cases hb : c = '!'
    · rw [if_pos hb]
      by_cases hcs : cs = []
      · subst hcs
        simp only [List.nil_append]
        rw [hpost]
        exact hname
      · rw [matchName_append pL post hpost cs hcs
          (fun x hx => hc x (List.mem_cons_of_mem _ hx))]
        simp [hb]
    · rw [if_neg hb]
      exact hname

theorem matchGroup_isSome (pL : Char → Bool) (post : List Char)
    (name : List Char) (hne : name ≠ []) (hc : ∀ c ∈ name, isNameChar pL c = true) :
    (matchGroup pL (name ++ ')' :: ')' :: post)).isSome = true := by
  have hname := matchName_isSome pL post name hne hc
  cases name with
  | nil => exact absurd rfl hne
  | cons c cs =>
    show (matchGroup pL (c :: (cs ++ ')' :: ')' :: post))).isSome = true
    rw [matchGroup]
    by_cases hb : c = '!'
    · rw [if_pos hb]
      cases hm : matchName pL (cs ++ ')' :: ')' :: post) with
      | none => exact hname
      | some r => rfl
    · rw [if_neg hb]
      exact hname

/-- The group of a negated placeholder keeps its `!`. -/
theorem matchGroup_bang (pL : Char → Bool) (name : List Char) (hne : name ≠ [])
    (hc : ∀ c ∈ name, isNameChar pL c = true) :
    matchGroup pL ('!' :: (name ++ [')', ')'])) = some ('!' :: name) := by
  rw [matchGroup, if_pos rfl,
    matchName_append pL [] (matchName_close_none pL) name hne hc]

theorem matchHere_open (pL : Char → Bool) (cs : List Char) :
    matchHere pL ('(' :: '(' :: cs) = matchGroup pL cs := by
  rw [matchHere]

theorem matchHere_not_open (pL : Char → Bool) (c : Char) (cs : List Char) (h : c ≠ '(') :
    matchHere pL (c :: cs) = none := by
  unfold matchHere
  split
  · rename_i heq
    injection heq with h1 _
    exact absurd h1 h
  · rfl

theorem findSubmatch_cons (pL : Char → Bool) (c : Char) (cs : List Char) :
    findSubmatch pL (c :: cs) =
      match matchHere pL (c :: cs) with
      | some g => some g
      | none => findSubmatch pL cs := by
  rw [findSubmatch]

/-- A match at the head is the leftmost one. -/
theorem findSubmatch_of_matchHere (pL : Char → Bool) (s g : List Char)
    (h : matchHere pL s = some g) : findSubmatch pL s = some g := by
  cases s with
  | nil => simp [matchHere] at h
  | cons c cs => rw [findSubmatch_cons, h]

/-- No match starts inside a prefix without `(`. -/
theorem findSubmatch_skip (pL : Char → Bool) (t : List Char) :
    ∀ pre : List Char, '(' ∉ pre → findSubmatch pL (pre ++ t) = findSubmatch pL t
  | [], _ => rfl
  | c :: pre, h => by
    have hc : c ≠ '(' := fun e => h (by simp [e])
    have hpre : '(' ∉ pre := fun e => h (List.mem_cons_of_mem _ e)
    show findSubmatch pL (c :: (pre ++ t)) = _
    rw [findSubmatch_cons, matchHere_not_open pL c _ hc]
    exact findSubmatch_skip pL t pre hpre

/-- A match later in the input makes the search succeed. -/
theorem findSubmatch_isSome_append (pL : Char → Bool) (t : List Char)
    (h : (findSubmatch pL t).isSome = true) :
    ∀ pre : List Char, (findSubmatch pL (pre ++ t)).isSome = true
  | [] => h
  | c :: pre => by
    show (findSubmatch pL (c :: (pre ++ t))).isSome = true
    rw [findSubmatch_cons]
    cases matchHere pL (c :: (pre ++ t)) with
    | some g => rfl
    | none => exact findSubmatch_isSome_append pL t h pre

/-- The bracket class depends on the letter table only at the character read. -/
theorem isNameChar_congr (pL pM : Char → Bool) (c : Char) (h : pL c = pM c) :
    isNameChar pL c = isNameChar pM c := by
  simp [isNameChar, h]

theorem matchName_congr (pL pM : Char → Bool) :
    ∀ s : List Char, (∀ c ∈ s, pL c = pM c) → matchName pL s = matchName pM s
  | [], _ => rfl
  | c :: cs, h => by
    rw [matchName_cons, matchName_cons,
      matchName_congr pL pM cs (fun x hx => h x (List.mem_cons_of_mem _ hx)),
      isNameChar_congr pL pM c (h c (by simp))]

theorem matchGroup_congr (pL pM : Char → Bool) (s : List Char)
    (h : ∀ c ∈ s, pL c = pM c) : matchGroup pL s = matchGroup pM s := by
  cases s with
  | nil => rfl
  | cons c cs =>
    rw [matchGroup, matchGroup, matchName_congr pL pM (c :: cs) h,
      matchName_congr pL pM cs (fun x hx => h x (List.mem_cons_of_mem _ hx))]

theorem matchHere_congr (pL pM : Char → Bool) (s : List Char)
    (h : ∀ c ∈ s, pL c = pM c) : matchHere pL s = matchHere pM s := by
  unfold matchHere
  split
  · rename_i cs
    exact matchGroup_congr pL pM cs
      (fun x hx => h x (List.mem_cons_of_mem _ (List.mem_cons_of_mem _ hx)))
  · rfl

/-- Two letter tables that agree on the characters of the input give the same
match: what the pattern does on a text depends on `\pL` only at the characters
of that text. -/
theorem findSubmatch_congr (pL pM : Char → Bool) :
    ∀ s : List Char, (∀ c ∈ s, pL c = pM c) → findSubmatch pL s = findSubmatch pM s
  | [], _ => rfl
  | c :: cs, h => by
    rw [findSubmatch_cons, findSubmatch_cons, matchHere_congr pL pM (c :: cs) h,
      findSubmatch_congr pL pM cs (fun x hx => h x (List.mem_cons_of_mem _ hx))]

theorem placeholder_data (name : String) :
    ("((" ++ name ++ "))").data = '(' :: '(' :: (name.data ++ [')', ')']) := by
  simp [String.data_append]

theorem data_ne_nil {s : String} (h : s ≠ "") : s.data ≠ [] := by
  intro hd
  apply h
  exact String.ext hd

/-! ## Lemmas on `strings.SplitN` -/

theorem cut_none_iff (sep : Char) : ∀ s : List Char, cut sep s = none ↔ sep ∉ s
  | [] => by simp [cut]
  | c :: cs => by
    have ih := cut_none_iff sep cs
    by_cases h : c = sep
    · simp [cut, h]
    · have h2 : ¬ sep = c := fun e => h e.symm
      simp [cut, h, h2, ih]

theorem cut_some (sep : Char) :
    ∀ (s a r : List Char), cut sep s = some (a, r) → s = a ++ sep :: r ∧ sep ∉ a
  | [], a, r, h => by simp [cut] at h
  | c :: cs, a, r, h => by
    by_cases hc : c = sep
    · simp [cut, hc] at h
      obtain ⟨rfl, rfl⟩ := h
      simp [hc]
    · rw [cut, if_neg hc] at h
      cases hcut : cut sep cs with
      | none => rw [hcut] at h; simp at h
      | some p =>
        obtain ⟨a1, r1⟩ := p
        rw [hcut] at h
        simp only [Option.map_some', Option.some.injEq, Prod.mk.injEq] at h
        obtain ⟨rfl, rfl⟩ := h
        obtain ⟨e1, e2⟩ := cut_some sep cs a1 r1 hcut
        refine ⟨by simp [e1], ?_⟩
        intro hm
        rcases List.mem_cons.mp hm with h3 | h3
        · exact hc h3.symm
        · exact e2 h3

theorem deriveNames_of_cut_none (name : String) (h : cut '.' name.data = none) :
    deriveNames name = (name, "value") := by
  simp [deriveNames, SplitN, splitN, h]

theorem deriveNames_of_cut_some (name : String) (a r : List Char)
    (h : cut '.' name.data = some (a, r)) :
    deriveNames name = (⟨a⟩, ⟨r⟩) := by
  simp [deriveNames, SplitN, splitN, h]

/-- C4: field-name derivation splits the after-name on its first dot only. A
name without a dot derives `(name, "value")`; a name with a dot derives the
text before the first dot (which holds no dot) and all the text after it, so
that `secretName ++ "." ++ fieldName` is the name again; `"foo"`, `"foo.bar"`
and `"foo.bar.baz"` derive `("foo","value")`, `("foo","bar")` and
`("foo","bar.baz")`. -/
theorem C4_field_name_derivation (name : String) :
    ('.' ∉ name.data → deriveNames name = (name, "value")) ∧
    ('.' ∈ name.data →
      '.' ∉ (deriveNames name).1.data ∧
      (deriveNames name).1 ++ "." ++ (deriveNames name).2 = name) ∧
    deriveNames "foo" = ("foo", "value") ∧
    deriveNames "foo.bar" = ("foo", "bar") ∧
    deriveNames "foo.bar.baz" = ("foo", "bar.baz") := by
  refine ⟨?_, ?_, by decide, by decide, by decide⟩
  · intro h
    exact deriveNames_of_cut_none name ((cut_none_iff '.' name.data).mpr h)
  · intro h
    cases hc : cut '.' name.data with
    | none => exact absurd h ((cut_none_iff '.' name.data).mp hc)
    | some p =>
      obtain ⟨a, r⟩ := p
      obtain ⟨e1, e2⟩ := cut_some '.' name.data a r hc
      rw [deriveNames_of_cut_some name a r hc]
      refine ⟨e2, ?_⟩
      apply String.ext
      simp [String.data_append, e1]

/-- The dotted name `"new-name.user"` of the end-to-end scenario derives the
secret `"new-name"` and the field `"user"`. -/
theorem C4_field_name_derivation_witness :
    '.' ∈ "new-name.user".data ∧
    '.' ∉ (deriveNames "new-name.user").1.data ∧
    (deriveNames "new-name.user").1 ++ "." ++ (deriveNames "new-name.user").2 =
      "new-name.user" :=
  ⟨by decide, (C4_field_name_derivation "new-name.user").2.1 (by decide)⟩

/-- C5 (as the code has it): extraction matches the pattern anywhere in the
scalar. For every text `pre ++ "((" ++ name ++ "))" ++ post` with `name` a
non-empty run of class characters, extraction reports a match; when `pre` holds
no `(` and `)` is not a letter, the match is that placeholder and the name
returned is `name`. -/
theorem C5_embedded_placeholder_is_extracted (pL : Char → Bool) (pre name post : String)
    (hne : name ≠ "") (hcs : ∀ c ∈ name.data, isNameChar pL c = true) :
    (FindStringSubmatch pL (pre ++ "((" ++ name ++ "))" ++ post)).isSome = true ∧
    (pL ')' = false → '(' ∉ pre.data →
      FindStringSubmatch pL (pre ++ "((" ++ name ++ "))" ++ post) =
        some ("((" ++ name ++ "))", name)) := by
  have hd : (pre ++ "((" ++ name ++ "))" ++ post).data =
      pre.data ++ ('(' :: '(' :: (name.data ++ ')' :: ')' :: post.data)) := by
    simp [String.data_append]
  have hn := data_ne_nil hne
  constructor
  · unfold FindStringSubmatch
    rw [hd, Option.isSome_map']
    apply findSubmatch_isSome_append
    obtain ⟨g, hg⟩ := Option.isSome_iff_exists.mp
      (matchGroup_isSome pL post.data name.data hn hcs)
    rw [findSubmatch_of_matchHere pL _ g (by rw [matchHere_open]; exact hg)]
    rfl
  · intro hp hpre
    unfold FindStringSubmatch
    rw [hd, findSubmatch_skip pL _ pre.data hpre,
      findSubmatch_of_matchHere pL _ name.data (by
        rw [matchHere_open]
        exact matchGroup_append pL post.data (matchName_paren_none pL hp _) name.data hn hcs)]
    rw [Option.map_some']
    exact congrArg some (Prod.ext (String.ext (by simp [String.data_append])) rfl)

/-- The text `"x((a))y"` with the Latin letter table: the embedded placeholder
is extracted with name `"a"`. -/
theorem C5_embedded_placeholder_is_extracted_witness :
    FindStringSubmatch latinLetter ("x" ++ "((" ++ "a" ++ "))" ++ "y") =
      some ("((" ++ "a" ++ "))", "a") :=
  (C5_embedded_placeholder_is_extracted latinLetter "x" "a" "y" (by decide) (by decide)).2
    (by decide) (by decide)

/-- C5, as stated, fails: on `"x((a))y"` and on `"((a))((b))"` extraction does
report a match, with name `"a"`, and the diff from `"x((a))y"` to `"((b))((c))"`
is not skipped: with the parameter `a` it stores `b.value`. -/
theorem C5_counterexample :
    FindStringSubmatch latinLetter "x((a))y" = some ("((a))", "a") ∧
    FindStringSubmatch latinLetter "((a))((b))" = some ("((a))", "a") ∧
    processDiff latinLetter [("a", .str "v")] ⟨[], []⟩
        ⟨some (.str "x((a))y"), some (.str "((b))((c))"), ["k"]⟩ =
      .ok ⟨[("b", [("value", .str "v")])], []⟩ :=
  ⟨by decide, by decide, rfl⟩

/-- C6 (as the code has it): the capture group encloses the negation marker.
For every non-empty run `name` of class characters, matching `"((!name))"`
returns the name `"!name"`, the leading `!` kept. -/
theorem C6_negation_marker_is_kept (pL : Char → Bool) (name : String)
    (hne : name ≠ "") (hcs : ∀ c ∈ name.data, isNameChar pL c = true) :
    FindStringSubmatch pL ("((!" ++ name ++ "))") =
      some ("((!" ++ name ++ "))", "!" ++ name) := by
  have hd : ("((!" ++ name ++ "))").data = '(' :: '(' :: '!' :: (name.data ++ [')', ')']) := by
    simp [String.data_append]
  unfold FindStringSubmatch
  rw [hd, findSubmatch_of_matchHere pL _ ('!' :: name.data) (by
    rw [matchHere_open]
    exact matchGroup_bang pL name.data (data_ne_nil hne) hcs)]
  rw [Option.map_some']
  exact congrArg some (Prod.ext (String.ext (by simp [String.data_append]))
    (String.ext (by simp [String.data_append])))

/-- The placeholder `"((!name))"` with the Latin letter table returns `"!name"`. -/
theorem C6_negation_marker_is_kept_witness :
    FindStringSubmatch latinLetter ("((!" ++ "name" ++ "))") =
      some ("((!" ++ "name" ++ "))", "!" ++ "name") :=
  C6_negation_marker_is_kept latinLetter "name" (by decide) (by decide)

/-- C6, as stated, fails: the name returned for `"((!name))"` is `"!name"`, not
`"name"`. -/
theorem C6_counterexample :
    FindStringSubmatch latinLetter "((!name))" = some ("((!name))", "!name") ∧
    (FindStringSubmatch latinLetter "((!name))").map Prod.snd ≠ some "name" := by
  decide

/-- C7: for every non-empty name made only of characters of the class
`[-\.\w\pL]`, matching `"((" ++ name ++ "))"` succeeds and returns exactly that
name. -/
theorem C7_match_returns_name (pL : Char → Bool) (name : String)
    (hne : name ≠ "") (hcs : ∀ c ∈ name.data, isNameChar pL c = true) :
    FindStringSubmatch pL ("((" ++ name ++ "))") = some ("((" ++ name ++ "))", name) := by
  unfold FindStringSubmatch
  rw [placeholder_data, findSubmatch_of_matchHere pL _ name.data (by
    rw [matchHere_open]
    exact matchGroup_append pL [] (matchName_close_none pL) name.data (data_ne_nil hne) hcs)]
  rw [Option.map_some']
  exact congrArg some (Prod.ext (String.ext (by simp [String.data_append])) rfl)

/-- The name `"db-pass.user_1é"` (hyphen, dot, underscore, digit, Unicode
letter) is returned unaltered. -/
theorem C7_match_returns_name_witness :
    FindStringSubmatch latinLetter ("((" ++ "db-pass.user_1é" ++ "))") =
      some ("((" ++ "db-pass.user_1é" ++ "))", "db-pass.user_1é") :=
  C7_match_returns_name latinLetter "db-pass.user_1é" (by decide) (by decide)

/-! ## Lemmas on the accumulator -/

theorem mapGet_mapSet_self {α : Type} (k : String) (v : α) :
    ∀ m : List (String × α), mapGet (mapSet m k v) k = some v
  | [] => by simp [mapSet, mapGet]
  | (k1, v1) :: m => by
    by_cases h : k1 = k
    · simp [mapSet, mapGet, h]
    · simp [mapSet, mapGet, h, mapGet_mapSet_self k v m]

theorem mapGet_mapSet_other {α : Type} (k k2 : String) (v : α) (hk : k2 ≠ k) :
    ∀ m : List (String × α), mapGet (mapSet m k v) k2 = mapGet m k2
  | [] => by
    have : ¬ k = k2 := fun e => hk e.symm
    simp [mapSet, mapGet, this]
  | (k1, v1) :: m => by
    by_cases h : k1 = k
    · have h2 : ¬ k = k2 := fun e => hk e.symm
      have h3 : ¬ k1 = k2 := fun e => hk (e.symm.trans h)
      simp [mapSet, mapGet, h, h2]
    · by_cases h4 : k1 = k2
      · subst h4
        simp [mapSet, mapGet, h]
      · simp [mapSet, mapGet, h, h4, mapGet_mapSet_other k k2 v hk m]

theorem entry_storeField_self (vv : VaultValues) (k f : String) (v : ConfigNode) :
    (storeField vv k f v).entry k f = some v := by
  unfold storeField VaultValues.entry
  cases h : mapGet vv k with
  | none => simp [mapGet_mapSet_self]
  | some fields => simp [mapGet_mapSet_self]

theorem entry_storeField_other (vv : VaultValues) (k f k2 f2 : String) (v : ConfigNode)
    (h : (k2, f2) ≠ (k, f)) :
    (storeField vv k f v).entry k2 f2 = vv.entry k2 f2 := by
  unfold storeField VaultValues.entry
  by_cases hk : k2 = k
  · subst hk
    have hf : f2 ≠ f := fun e => h (by rw [e])
    have hf2 : ¬ f = f2 := fun e => hf e.symm
    cases hg : mapGet vv k2 with
    | none => simp [mapGet_mapSet_self, mapSet, mapGet, hf2]
    | some fields => simp [mapGet_mapSet_self, mapGet_mapSet_other _ _ _ hf]
  · cases hg : mapGet vv k with
    | none => simp [mapGet_mapSet_other _ _ _ hk]
    | some fields => simp [mapGet_mapSet_other _ _ _ hk]

/-! ## Lemmas on the correlation loop -/

/-- The correlation case of the loop body, once both sides are placeholders. -/
theorem processDiff_both (pL : Char → Bool) (params : List (String × ConfigNode))
    (st : State) (d : Diff) (strA strB : String) (aParam bParam : String × String)
    (hA : d.A = some (.str strA)) (hB : d.B = some (.str strB))
    (hmA : FindStringSubmatch pL strA = some aParam)
    (hmB : FindStringSubmatch pL strB = some bParam) :
    processDiff pL params st d =
      match mapGet params aParam.2 with
      | none => .ok { st with log := st.log ++ [.skipNoValue (".".intercalate d.Path)] }
      | some value =>
        .ok ⟨storeField st.vaultValues (deriveNames bParam.2).1 (deriveNames bParam.2).2
          value.Value, st.log⟩ := by
  unfold processDiff
  simp only [hA, hB, ConfigNode.Value, ConfigNode.asString, hmA, hmB]

/-- The loop body on a structural entry whose present side is `n`. -/
theorem processDiff_structural (pL : Char → Bool) (params : List (String × ConfigNode))
    (st : State) (d : Diff) (n : ConfigNode)
    (hd : (d.A = none ∧ d.B = some n) ∨ (d.A = some n ∧ d.B = none)) :
    processDiff pL params st d =
      match n.asString with
      | some s =>
        if MatchString pL s then .error (.fatal (".".intercalate d.Path) s)
        else .ok { st with log := st.log ++ [.skipUnrelated (".".intercalate d.Path)] }
      | none => .ok { st with log := st.log ++ [.skipUnrelated (".".intercalate d.Path)] } := by
  unfold processDiff
  rcases hd with ⟨hA, hB⟩ | ⟨hA, hB⟩
  · simp only [hA, hB, checkOrphaned, ConfigNode.Value]
    cases n.asString with
    | none => rfl
    | some s => by_cases hm : MatchString pL s = true <;> simp [hm]
  · simp only [hA, hB, checkOrphaned, ConfigNode.Value]
    cases n.asString with
    | none => rfl
    | some s => by_cases hm : MatchString pL s = true <;> simp [hm]

theorem correlate_append (pL : Char → Bool) (params : List (String × ConfigNode)) :
    ∀ (pre post : List Diff) (st : State),
      correlate pL params st (pre ++ post) =
        match correlate pL params st pre with
        | .error e => .error e
        | .ok st1 => correlate pL params st1 post
  | [], post, st => by simp [correlate]
  | d :: pre, post, st => by
    show correlate pL params st (d :: (pre ++ post)) = _
    rw [correlate, correlate]
    cases processDiff pL params st d with
    | error e => rfl
    | ok st1 => exact correlate_append pL params pre post st1

/-- The loop stops at a structural entry whose present side is a string scalar
in which the pattern occurs. -/
theorem processDiff_orphan (pL : Char → Bool) (params : List (String × ConfigNode))
    (st : State) (d : Diff) (s : String)
    (hd : (d.A = none ∧ d.B = some (.str s)) ∨ (d.A = some (.str s) ∧ d.B = none))
    (hm : MatchString pL s = true) :
    processDiff pL params st d = .error (.fatal (".".intercalate d.Path) s) := by
  rw [processDiff_structural pL params st d (.str s) hd]
  simp [ConfigNode.asString, hm]

/-- C1: for a diff whose before and after are both present string scalars in
which extraction finds a placeholder, the before-name being a key of the
parameter table, the loop body goes on and sets the accumulator entry
`[secretName][fieldName]` derived from the after-name to the value of that
parameter; every other `(secretName, fieldName)` entry is as it was. -/
theorem C1_correlation_sets_one_entry (pL : Char → Bool)
    (params : List (String × ConfigNode)) (st : State) (d : Diff)
    (strA strB : String) (aParam bParam : String × String) (value : ConfigNode)
    (hA : d.A = some (.str strA)) (hB : d.B = some (.str strB))
    (hmA : FindStringSubmatch pL strA = some aParam)
    (hmB : FindStringSubmatch pL strB = some bParam)
    (hv : mapGet params aParam.2 = some value) :
    ∃ st1, processDiff pL params st d = .ok st1 ∧
      st1.vaultValues.entry (deriveNames bParam.2).1 (deriveNames bParam.2).2 =
        some value.Value ∧
      ∀ secretName fieldName, (secretName, fieldName) ≠ deriveNames bParam.2 →
        st1.vaultValues.entry secretName fieldName =
          st.vaultValues.entry secretName fieldName := by
  refine ⟨⟨storeField st.vaultValues (deriveNames bParam.2).1 (deriveNames bParam.2).2
    value.Value, st.log⟩, ?_, ?_, ?_⟩
  · rw [processDiff_both pL params st d strA strB aParam bParam hA hB hmA hmB, hv]
  · exact entry_storeField_self _ _ _ _
  · intro k f h
    exact entry_storeField_other _ _ _ _ _ _ h

/-- The end-to-end scenario: before `"((old-name))"`, after `"((new-name.user))"`
and parameters `old-name: "admin"`, on an accumulator that already holds
`other.value`. -/
theorem C1_correlation_sets_one_entry_witness :
    ∃ st1, processDiff latinLetter [("old-name", .str "admin")]
        ⟨[("other", [("value", .str "x")])], []⟩
        ⟨some (.str "((old-name))"), some (.str "((new-name.user))"), ["a"]⟩ = .ok st1 ∧
      st1.vaultValues.entry (deriveNames "new-name.user").1 (deriveNames "new-name.user").2 =
        some (ConfigNode.str "admin").Value ∧
      ∀ secretName fieldName, (secretName, fieldName) ≠ deriveNames "new-name.user" →
        st1.vaultValues.entry secretName fieldName =
          VaultValues.entry [("other", [("value", .str "x")])] secretName fieldName :=
  C1_correlation_sets_one_entry latinLetter [("old-name", .str "admin")]
    ⟨[("other", [("value", .str "x")])], []⟩
    ⟨some (.str "((old-name))"), some (.str "((new-name.user))"), ["a"]⟩
    "((old-name))" "((new-name.user))" ("((old-name))", "old-name")
    ("((new-name.user))", "new-name.user") (.str "admin") rfl rfl (by decide) (by decide) rfl

/-- C2: when the diff list holds a structural entry (exactly one side absent)
whose present side is a string scalar in which the pattern occurs, the run
issues no write to the sink and ends in an abort; the abort is the fatal one of
that entry, with its path and value, unless an entry before it already stopped
the run. -/
theorem C2_orphan_aborts_before_any_write (pL : Char → Bool) (cmd : Command)
    (params : List (String × ConfigNode)) (sink : Sink) (pre post : List Diff)
    (d : Diff) (s : String)
    (hd : (d.A = none ∧ d.B = some (.str s)) ∨ (d.A = some (.str s) ∧ d.B = none))
    (hm : MatchString pL s = true) :
    (Execute pL cmd (.map params) sink (pre ++ d :: post)).writes = [] ∧
    (correlate pL params ⟨[], []⟩ (pre ++ d :: post) =
      match correlate pL params ⟨[], []⟩ pre with
      | .error e => .error e
      | .ok _ => .error (.fatal (".".intercalate d.Path) s)) ∧
    ((∃ path value, (Execute pL cmd (.map params) sink (pre ++ d :: post)).exit =
        .fatal path value) ∨
      (Execute pL cmd (.map params) sink (pre ++ d :: post)).exit = .nilDeref) ∧
    (∀ st, correlate pL params ⟨[], []⟩ pre = .ok st →
      (Execute pL cmd (.map params) sink (pre ++ d :: post)).exit =
        .fatal (".".intercalate d.Path) s) := by
  have hc : correlate pL params ⟨[], []⟩ (pre ++ d :: post) =
      match correlate pL params ⟨[], []⟩ pre with
      | .error e => .error e
      | .ok _ => .error (.fatal (".".intercalate d.Path) s) := by
    rw [correlate_append]
    cases correlate pL params ⟨[], []⟩ pre with
    | error e => rfl
    | ok st1 =>
      show correlate pL params st1 (d :: post) = _
      rw [correlate, processDiff_orphan pL params st1 d s hd hm]
  refine ⟨?_, hc, ?_, ?_⟩
  · unfold Execute
    simp only [ConfigNode.Value]
    rw [hc]
    cases correlate pL params ⟨[], []⟩ pre with
    | error e => cases e <;> rfl
    | ok st1 => rfl
  · unfold Execute
    simp only [ConfigNode.Value]
    rw [hc]
    cases correlate pL params ⟨[], []⟩ pre with
    | error e =>
      cases e with
      | fatal p v => exact Or.inl ⟨p, v, rfl⟩
      | nilDeref => exact Or.inr rfl
    | ok st1 => exact Or.inl ⟨_, _, rfl⟩
  · intro st hst
    unfold Execute
    simp only [ConfigNode.Value]
    rw [hc, hst]

/-- A correlating entry, then the removed key `"b"` whose value was
`"x((gone))"`, then another entry: no write, fatal at `"b"`. -/
theorem C2_orphan_aborts_before_any_write_witness :
    (Execute latinLetter ⟨"/concourse", "myteam", "mypipe", [], false⟩
      (.map [("old-name", .str "admin")]) (fun _ _ _ => none)
      ([⟨some (.str "((old-name))"), some (.str "((new-name.user))"), ["a"]⟩] ++
        ⟨some (.str "x((gone))"), none, ["b"]⟩ ::
        [⟨some (.str "1"), some (.str "2"), ["c"]⟩])).writes = [] ∧
    (Execute latinLetter ⟨"/concourse", "myteam", "mypipe", [], false⟩
      (.map [("old-name", .str "admin")]) (fun _ _ _ => none)
      ([⟨some (.str "((old-name))"), some (.str "((new-name.user))"), ["a"]⟩] ++
        ⟨some (.str "x((gone))"), none, ["b"]⟩ ::
        [⟨some (.str "1"), some (.str "2"), ["c"]⟩])).exit = .fatal "b" "x((gone))" :=
  have h := C2_orphan_aborts_before_any_write latinLetter
    ⟨"/concourse", "myteam", "mypipe", [], false⟩ [("old-name", .str "admin")]
    (fun _ _ _ => none)
    [⟨some (.str "((old-name))"), some (.str "((new-name.user))"), ["a"]⟩]
    [⟨some (.str "1"), some (.str "2"), ["c"]⟩]
    ⟨some (.str "x((gone))"), none, ["b"]⟩ "x((gone))" (Or.inr ⟨rfl, rfl⟩) (by decide)
  ⟨h.1, h.2.2.2 _ rfl⟩

/-- C3 (as the code has it): on a structural entry (one side absent) the loop
body aborts exactly when the present side is a string scalar in which the
pattern occurs; a present side in which it does not occur, or that is not a
string scalar (a number, a bool, a sequence or a mapping, whatever it holds),
is skipped with the accumulator unchanged. -/
theorem C3_orphan_check_reads_string_scalars_only (pL : Char → Bool)
    (params : List (String × ConfigNode)) (st : State) (d : Diff) (n : ConfigNode)
    (hd : (d.A = none ∧ d.B = some n) ∨ (d.A = some n ∧ d.B = none)) :
    (∀ s, n = .str s → MatchString pL s = true →
      processDiff pL params st d = .error (.fatal (".".intercalate d.Path) s)) ∧
    ((∀ s, n = .str s → MatchString pL s = false) →
      processDiff pL params st d =
        .ok ⟨st.vaultValues, st.log ++ [.skipUnrelated (".".intercalate d.Path)]⟩) := by
  rw [processDiff_structural pL params st d n hd]
  constructor
  · intro s hn hm
    subst hn
    simp [ConfigNode.asString, hm]
  · intro h
    cases n with
    | str s => simp [ConfigNode.asString, h s rfl]
    | num _ => rfl
    | bool _ => rfl
    | seq _ => rfl
    | map _ => rfl

/-- An added key whose value is the sequence holding `((a))` is skipped. -/
theorem C3_orphan_check_reads_string_scalars_only_witness :
    processDiff latinLetter [] ⟨[], []⟩ ⟨none, some (.seq [.str "((a))"]), ["k"]⟩ =
      .ok ⟨[], [] ++ [.skipUnrelated (".".intercalate ["k"])]⟩ :=
  (C3_orphan_check_reads_string_scalars_only latinLetter [] ⟨[], []⟩
    ⟨none, some (.seq [.str "((a))"]), ["k"]⟩ (.seq [.str "((a))"]) (Or.inl ⟨rfl, rfl⟩)).2
    (fun s h => by cases h)

/-- C3, as stated, fails: the added sequence holding `((a))` and the removed
mapping with `((a))` under the key `user` bear a placeholder, and the loop body
skips both entries instead of aborting. -/
theorem C3_counterexample :
    (ConfigNode.seq [.str "((a))"]).bearsPlaceholder latinLetter = true ∧
    processDiff latinLetter [] ⟨[], []⟩ ⟨none, some (.seq [.str "((a))"]), ["k"]⟩ =
      .ok ⟨[], [.skipUnrelated "k"]⟩ ∧
    (ConfigNode.map [("user", .str "((a))")]).bearsPlaceholder latinLetter = true ∧
    processDiff latinLetter [] ⟨[], []⟩ ⟨some (.map [("user", .str "((a))")]), none, ["k"]⟩ =
      .ok ⟨[], [.skipUnrelated "k"]⟩ :=
  ⟨by decide, rfl, by decide, rfl⟩

/-- C10: for a diff whose before and after are both strings in which extraction
finds a placeholder, the before-name not being a key of the parameter table, the
loop body goes on (no abort) with the accumulator unchanged. -/
theorem C10_unresolved_name_is_skipped (pL : Char → Bool)
    (params : List (String × ConfigNode)) (st : State) (d : Diff)
    (strA strB : String) (aParam bParam : String × String)
    (hA : d.A = some (.str strA)) (hB : d.B = some (.str strB))
    (hmA : FindStringSubmatch pL strA = some aParam)
    (hmB : FindStringSubmatch pL strB = some bParam)
    (hv : mapGet params aParam.2 = none) :
    ∃ st1, processDiff pL params st d = .ok st1 ∧ st1.vaultValues = st.vaultValues := by
  refine ⟨⟨st.vaultValues, st.log ++ [.skipNoValue (".".intercalate d.Path)]⟩, ?_, rfl⟩
  rw [processDiff_both pL params st d strA strB aParam bParam hA hB hmA hmB, hv]

/-- The before-name `"missing"` is not among the parameters `old-name: "admin"`. -/
theorem C10_unresolved_name_is_skipped_witness :
    ∃ st1, processDiff latinLetter [("old-name", .str "admin")]
        ⟨[("other", [("value", .str "x")])], []⟩
        ⟨some (.str "((missing))"), some (.str "((new-name.user))"), ["a"]⟩ = .ok st1 ∧
      st1.vaultValues = [("other", [("value", .str "x")])] :=
  C10_unresolved_name_is_skipped latinLetter [("old-name", .str "admin")]
    ⟨[("other", [("value", .str "x")])], []⟩
    ⟨some (.str "((missing))"), some (.str "((new-name.user))"), ["a"]⟩
    "((missing))" "((new-name.user))" ("((missing))", "missing")
    ("((new-name.user))", "new-name.user") rfl rfl (by decide) (by decide) rfl

/-! ## Lemmas on `path.Clean` -/

theorem cleanLoop_step (rooted : Bool) (fuel : Nat) (c : Char) (rest out : List Char)
    (dotdot : Nat) :
    cleanLoop rooted (fuel + 1) (c :: rest) out dotdot =
      if c = '/' then
        cleanLoop rooted fuel rest out dotdot
      else if c = '.' ∧ (rest = [] ∨ rest.head? = some '/') then
        cleanLoop rooted fuel rest out dotdot
      else if c = '.' ∧ rest.head? = some '.' ∧
          (rest.tail = [] ∨ rest.tail.head? = some '/') then
        if out.length > dotdot then
          cleanLoop rooted fuel rest.tail (backtrack dotdot out) dotdot
        else if !rooted then
          cleanLoop rooted fuel rest.tail
            ('.' :: '.' :: (if out.length > 0 then '/' :: out else out))
            ('.' :: '.' :: (if out.length > 0 then '/' :: out else out)).length
        else
          cleanLoop rooted fuel rest.tail out dotdot
      else
        cleanLoop rooted fuel ((c :: rest).dropWhile (· != '/'))
          (((c :: rest).takeWhile (· != '/')).reverse ++
            (if (rooted && out.length != 1) || (!rooted && out.length != 0) then '/' :: out
              else out)) dotdot := by
  rw [cleanLoop]

theorem cleanLoop_nil (rooted : Bool) (fuel : Nat) (out : List Char) (dotdot : Nat) :
    cleanLoop rooted fuel [] out dotdot = out := by
  cases fuel <;> rfl

theorem dropWhile_notSlash_length (c : Char) (rest : List Char) (h : c ≠ '/') :
    ((c :: rest).dropWhile (· != '/')).length ≤ rest.length := by
  have : (c != '/') = true := by simpa using h
  rw [List.dropWhile_cons, if_pos this]
  exact (List.dropWhile_sublist _).length_le

/-- Once the fuel covers the unread input, more fuel changes nothing. -/
theorem cleanLoop_fuel (rooted : Bool) :
    ∀ (f1 f2 : Nat) (rest out : List Char) (dotdot : Nat),
      rest.length ≤ f1 → rest.length ≤ f2 →
      cleanLoop rooted f1 rest out dotdot = cleanLoop rooted f2 rest out dotdot
  | _, _, [], out, dotdot, _, _ => by rw [cleanLoop_nil, cleanLoop_nil]
  | 0, _, c :: rest, _, _, h1, _ => by simp at h1
  | _ + 1, 0, c :: rest, _, _, _, h2 => by simp at h2
  | f1 + 1, f2 + 1, c :: rest, out, dotdot, h1, h2 => by
    have h1r : rest.length ≤ f1 := by simpa using h1
    have h2r : rest.length ≤ f2 := by simpa using h2
    have ht : rest.tail.length ≤ rest.length := by simp
    rw [cleanLoop_step, cleanLoop_step]
    by_cases hs : c = '/'
    · rw [if_pos hs, if_pos hs]
      exact cleanLoop_fuel rooted f1 f2 rest out dotdot h1r h2r
    · have hd := dropWhile_notSlash_length c rest hs
      rw [if_neg hs, if_neg hs]
      split_ifs
      all_goals exact cleanLoop_fuel rooted f1 f2 _ _ _ (by omega) (by omega)

/-- The loop body for a rooted path. -/
theorem cleanLoop_step_rooted (fuel : Nat) (c : Char) (rest out : List Char) (dotdot : Nat) :
    cleanLoop true (fuel + 1) (c :: rest) out dotdot =
      if c = '/' then
        cleanLoop true fuel rest out dotdot
      else if c = '.' ∧ (rest = [] ∨ rest.head? = some '/') then
        cleanLoop true fuel rest out dotdot
      else if c = '.' ∧ rest.head? = some '.' ∧
          (rest.tail = [] ∨ rest.tail.head? = some '/') then
        if out.length > dotdot then
          cleanLoop true fuel rest.tail (backtrack dotdot out) dotdot
        else
          cleanLoop true fuel rest.tail out dotdot
      else
        cleanLoop true fuel ((c :: rest).dropWhile (· != '/'))
          (((c :: rest).takeWhile (· != '/')).reverse ++
            (if out.length ≠ 1 then '/' :: out else out)) dotdot := by
  rw [cleanLoop_step]
  simp

theorem takeWhile_append_slash (t : List Char) :
    ∀ l : List Char, (l ++ '/' :: t).takeWhile (· != '/') = l.takeWhile (· != '/')
  | [] => by simp
  | c :: l => by
    by_cases h : c = '/'
    · simp [h]
    · simp [List.takeWhile_cons, h, takeWhile_append_slash t l]

theorem dropWhile_append_slash (t : List Char) :
    ∀ l : List Char,
      (l ++ '/' :: t).dropWhile (· != '/') = l.dropWhile (· != '/') ++ '/' :: t
  | [] => by simp
  | c :: l => by
    by_cases h : c = '/'
    · simp [h]
    · simp [List.dropWhile_cons, h, dropWhile_append_slash t l]

theorem dot_cond_append (r t : List Char) :
    ((r ++ '/' :: t) = [] ∨ (r ++ '/' :: t).head? = some '/') ↔
      (r = [] ∨ r.head? = some '/') := by
  cases r <;> simp

theorem dotdot_cond_append (r t : List Char) :
    ((r ++ '/' :: t).head? = some '.' ∧
        ((r ++ '/' :: t).tail = [] ∨ (r ++ '/' :: t).tail.head? = some '/')) ↔
      (r.head? = some '.' ∧ (r.tail = [] ∨ r.tail.head? = some '/')) := by
  cases r with
  | nil => simp
  | cons x r1 => cases r1 <;> simp

/-- Reading a rooted path up to a `/` leaves the buffer that reading the text
before that `/` alone leaves: the loop treats the end of the input and a `/`
alike. -/
theorem cleanLoop_append_slash (t : List Char) :
    ∀ (n : Nat) (rest out : List Char) (dotdot f1 f2 f3 : Nat),
      rest.length ≤ n → rest.length ≤ f1 → (rest ++ '/' :: t).length ≤ f2 →
      ('/' :: t).length ≤ f3 →
      cleanLoop true f2 (rest ++ '/' :: t) out dotdot =
        cleanLoop true f3 ('/' :: t) (cleanLoop true f1 rest out dotdot) dotdot
  | _, [], out, dotdot, f1, f2, f3, _, _, h2, h3 => by
    rw [cleanLoop_nil]
    exact cleanLoop_fuel true f2 f3 _ _ _ h2 h3
  | 0, c :: r, _, _, _, _, _, hn, _, _, _ => by simp at hn
  | _ + 1, c :: r, _, _, 0, _, _, _, h1, _, _ => by simp at h1
  | _ + 1, c :: r, _, _, _ + 1, 0, _, _, _, h2, _ => by simp at h2
  | n + 1, c :: r, out, dotdot, f1 + 1, f2 + 1, f3, hn, h1, h2, h3 => by
    have hnr : r.length ≤ n := by simpa using hn
    have h1r : r.length ≤ f1 := by simpa using h1
    have h2r : (r ++ '/' :: t).length ≤ f2 := by simpa using h2
    have ht : r.tail.length ≤ r.length := by simp
    show cleanLoop true (f2 + 1) (c :: (r ++ '/' :: t)) out dotdot = _
    rw [cleanLoop_step_rooted, cleanLoop_step_rooted]
    simp only [dot_cond_append, dotdot_cond_append]
    by_cases hs : c = '/'
    · rw [if_pos hs, if_pos hs]
      exact cleanLoop_append_slash t n r out dotdot f1 f2 f3 hnr h1r h2r h3
    · rw [if_neg hs, if_neg hs]
      by_cases hdot : c = '.' ∧ (r = [] ∨ r.head? = some '/')
      · rw [if_pos hdot, if_pos hdot]
        exact cleanLoop_append_slash t n r out dotdot f1 f2 f3 hnr h1r h2r h3
      · rw [if_neg hdot, if_neg hdot]
        by_cases hdd : c = '.' ∧ r.head? = some '.' ∧ (r.tail = [] ∨ r.tail.head? = some '/')
        · rw [if_pos hdd, if_pos hdd]
          have hrne : r ≠ [] := by
            intro e
            rw [e] at hdd
            simp at hdd
          have htl : (r ++ '/' :: t).tail = r.tail ++ '/' :: t := by
            cases r with
            | nil => exact absurd rfl hrne
            | cons x r1 => rfl
          have h2t : (r.tail ++ '/' :: t).length ≤ f2 := by
            have : (r.tail ++ '/' :: t).length ≤ (r ++ '/' :: t).length := by
              simp only [List.length_append]
              omega
            omega
          rw [htl]
          split_ifs
          all_goals
            exact cleanLoop_append_slash t n r.tail _ dotdot f1 f2 f3
              (by omega) (by omega) h2t h3
        · rw [if_neg hdd, if_neg hdd]
          have hcons : c :: (r ++ '/' :: t) = (c :: r) ++ '/' :: t := rfl
          rw [hcons, takeWhile_append_slash, dropWhile_append_slash]
          have hd := dropWhile_notSlash_length c r hs
          have h2d : (List.dropWhile (· != '/') (c :: r) ++ '/' :: t).length ≤ f2 := by
            have e2 : (r ++ '/' :: t).length = r.length + ('/' :: t).length := by simp
            have e3 : (List.dropWhile (· != '/') (c :: r) ++ '/' :: t).length =
                (List.dropWhile (· != '/') (c :: r)).length + ('/' :: t).length := by simp
            omega
          exact cleanLoop_append_slash t n _ _ dotdot f1 f2 f3
            (by omega) (by omega) h2d h3

theorem takeWhile_segment (tail : List Char) (htail : tail = [] ∨ tail.head? = some '/') :
    ∀ seg : List Char, '/' ∉ seg →
      (seg ++ tail).takeWhile (· != '/') = seg ∧ (seg ++ tail).dropWhile (· != '/') = tail
  | [], _ => by
    rcases htail with h | h
    · simp [h]
    · cases tail with
      | nil => simp
      | cons x t =>
        have hx : x = '/' := by simpa using h
        simp [hx]
  | c :: seg, hns => by
    have hc : c ≠ '/' := fun e => hns (by simp [e])
    have ih := takeWhile_segment tail htail seg (fun e => hns (List.mem_cons_of_mem _ e))
    simp [List.takeWhile_cons, List.dropWhile_cons, hc, ih.1, ih.2]

/-- One iteration of the loop copies a plain segment to the buffer, after a
`/` unless the buffer holds the root alone. -/
theorem cleanLoop_segment (seg tail out : List Char) (dotdot f1 f2 : Nat)
    (hne : seg ≠ []) (hns : '/' ∉ seg) (hd1 : seg ≠ ['.']) (hd2 : seg ≠ ['.', '.'])
    (htail : tail = [] ∨ tail.head? = some '/')
    (hf1 : (seg ++ tail).length ≤ f1) (hf2 : tail.length ≤ f2) :
    cleanLoop true f1 (seg ++ tail) out dotdot =
      cleanLoop true f2 tail (seg.reverse ++ (if out.length ≠ 1 then '/' :: out else out))
        dotdot := by
  cases seg with
  | nil => exact absurd rfl hne
  | cons c cs =>
    cases f1 with
    | zero => simp at hf1
    | succ g =>
      have hc : c ≠ '/' := fun e => hns (by simp [e])
      have hcs : '/' ∉ cs := fun e => hns (List.mem_cons_of_mem _ e)
      have hdot : ¬ (c = '.' ∧ ((cs ++ tail) = [] ∨ (cs ++ tail).head? = some '/')) := by
        rintro ⟨e, h⟩
        subst e
        cases cs with
        | nil => exact hd1 rfl
        | cons x cs1 =>
          have hx : x = '/' := by simpa using h
          exact hcs (by simp [hx])
      have hdd : ¬ (c = '.' ∧ (cs ++ tail).head? = some '.' ∧
          ((cs ++ tail).tail = [] ∨ (cs ++ tail).tail.head? = some '/')) := by
        rintro ⟨e, h1, h2⟩
        subst e
        cases cs with
        | nil =>
          rcases htail with ht | ht
          · rw [ht] at h1
            simp at h1
          · simp only [List.nil_append] at h1
            rw [ht] at h1
            simp at h1
        | cons x cs1 =>
          have hx : x = '.' := by simpa using h1
          subst hx
          cases cs1 with
          | nil => exact hd2 rfl
          | cons y cs2 =>
            have hy : y = '/' := by simpa using h2
            exact hcs (by simp [hy])
      have htd := takeWhile_segment tail htail (c :: cs) hns
      show cleanLoop true (g + 1) (c :: (cs ++ tail)) out dotdot = _
      rw [cleanLoop_step_rooted, if_neg hc, if_neg hdot, if_neg hdd]
      have hcons : c :: (cs ++ tail) = (c :: cs) ++ tail := rfl
      rw [hcons, htd.1, htd.2]
      have hg : tail.length ≤ g := by
        have : ((c :: cs) ++ tail).length = cs.length + 1 + tail.length := by
          simp only [List.length_append, List.length_cons]
        omega
      exact cleanLoop_fuel true g f2 _ _ _ hg hf2

/-- A plain segment appended to a clean rooted path other than `/` gives a
clean path. -/
theorem cleanChars_append_segment (p seg : List Char)
    (hroot : p.head? = some '/') (hclean : cleanChars p = p) (hnr : p ≠ ['/'])
    (hne : seg ≠ []) (hns : '/' ∉ seg) (hd1 : seg ≠ ['.']) (hd2 : seg ≠ ['.', '.']) :
    cleanChars (p ++ '/' :: seg) = p ++ '/' :: seg := by
  cases p with
  | nil => simp at hroot
  | cons c rest =>
    have hc : c = '/' := by simpa using hroot
    subst hc
    have hrest : rest ≠ [] := fun e => hnr (by rw [e])
    have hout : cleanLoop true rest.length rest ['/'] 1 = ('/' :: rest).reverse := by
      unfold cleanChars at hclean
      simp only [if_true] at hclean
      by_cases h0 : cleanLoop true rest.length rest ['/'] 1 = []
      · rw [if_pos h0] at hclean
        injection hclean with h1 _
        exact absurd h1 (by decide)
      · rw [if_neg h0] at hclean
        rw [← hclean, List.reverse_reverse]
    have hlen : (cleanLoop true rest.length rest ['/'] 1).length ≠ 1 := by
      rw [hout]
      cases rest with
      | nil => exact absurd rfl hrest
      | cons x r => simp
    have hloop : cleanLoop true (rest ++ '/' :: seg).length (rest ++ '/' :: seg) ['/'] 1 =
        seg.reverse ++ '/' :: ('/' :: rest).reverse := by
      rw [cleanLoop_append_slash seg rest.length rest ['/'] 1 rest.length
        (rest ++ '/' :: seg).length (seg.length + 1) (le_refl _) (le_refl _) (le_refl _)
        (by simp)]
      rw [cleanLoop_step_rooted, if_pos rfl]
      have := cleanLoop_segment seg [] (cleanLoop true rest.length rest ['/'] 1) 1
        seg.length 0 hne hns hd1 hd2 (Or.inl rfl) (by simp) (by simp)
      simp only [List.append_nil] at this
      rw [this, cleanLoop_nil, if_pos hlen, hout]
    show cleanChars ('/' :: (rest ++ '/' :: seg)) = _
    unfold cleanChars
    simp only [if_true]
    rw [hloop]
    simp

/-! ## Lemmas on `path.Join` and `paramPath` -/

theorem slashJoin_cons_cons (a e : List Char) (es : List (List Char)) :
    slashJoin (a :: e :: es) = a ++ '/' :: slashJoin (e :: es) := by
  simp [slashJoin]

theorem slashJoin_append_head (a e : List Char) (es : List (List Char)) :
    slashJoin ((a ++ '/' :: e) :: es) = a ++ '/' :: slashJoin (e :: es) := by
  cases es with
  | nil => simp [slashJoin]
  | cons x xs => simp [slashJoin_cons_cons]

theorem joinBuf_of_ne_nil :
    ∀ (es : List (List Char)) (buf : List Char), buf ≠ [] →
      joinBuf buf es = slashJoin (buf :: es)
  | [], buf, _ => by simp [joinBuf, slashJoin]
  | e :: es, buf, h => by
    rw [joinBuf, if_pos (Or.inl h), if_pos h,
      joinBuf_of_ne_nil es _ (by simp), slashJoin_cons_cons]
    have : buf ++ ['/'] ++ e = buf ++ '/' :: e := by simp
    rw [this, slashJoin_append_head]

theorem joinBuf_nil :
    ∀ es : List (List Char), joinBuf [] es = slashJoin (es.dropWhile (· = []))
  | [] => by simp [joinBuf, slashJoin]
  | e :: es => by
    by_cases he : e = []
    · subst he
      rw [joinBuf, if_neg (by simp)]
      simpa using joinBuf_nil es
    · rw [joinBuf, if_pos (Or.inr he), if_neg (by simp)]
      simp only [List.nil_append]
      rw [joinBuf_of_ne_nil es e he]
      simp [List.dropWhile_cons, he]

theorem map_data_dropWhile :
    ∀ elem : List String,
      (elem.map String.data).dropWhile (· = []) = (elem.dropWhile (· = "")).map String.data
  | [] => rfl
  | e :: es => by
    by_cases he : e = ""
    · subst he
      simpa [List.dropWhile_cons] using map_data_dropWhile es
    · have hd : e.data ≠ [] := data_ne_nil he
      simp [List.dropWhile_cons, he, hd]

theorem sum_length_eq_zero_iff :
    ∀ elem : List String, (elem.map String.length).sum = 0 ↔ ∀ e ∈ elem, e = ""
  | [] => by simp
  | e :: es => by
    have ih := sum_length_eq_zero_iff es
    have he : e.length = 0 ↔ e = "" := by
      constructor
      · intro h
        exact String.ext (List.length_eq_zero.mp h)
      · intro h
        rw [h]
        rfl
    simp [ih, he]

/-- The function `path.Join` is `path.Clean` of the elements from the first
non-empty one on, joined with `/`. -/
theorem pathJoin_eq (elem : List String) :
    pathJoin elem =
      if ∀ e ∈ elem, e = "" then ""
      else ⟨cleanChars (slashJoin ((elem.dropWhile (· = "")).map String.data))⟩ := by
  unfold pathJoin
  by_cases h : ∀ e ∈ elem, e = ""
  · rw [if_pos ((sum_length_eq_zero_iff elem).mpr h), if_pos h]
  · rw [if_neg (fun e => h ((sum_length_eq_zero_iff elem).mp e)), if_neg h,
      joinBuf_nil, map_data_dropWhile]

theorem isTeamParamLoop_iff (param : String) :
    ∀ ps : List String, isTeamParamLoop param ps = true ↔ param ∈ ps
  | [] => by simp [isTeamParamLoop]
  | p :: ps => by
    by_cases h : param = p
    · simp [isTeamParamLoop, h]
    · simp [isTeamParamLoop, h, isTeamParamLoop_iff param ps]

theorem plainName_data (s : String) (h : plainName s = true) :
    s.data ≠ [] ∧ '/' ∉ s.data ∧ s.data ≠ ['.'] ∧ s.data ≠ ['.', '.'] := by
  simp only [plainName, Bool.and_eq_true, bne_iff_ne, ne_eq, Bool.not_eq_true',
    List.contains_eq_any_beq, List.any_eq_false, beq_iff_eq] at h
  obtain ⟨⟨⟨h1, h2⟩, h3⟩, h4⟩ := h
  refine ⟨data_ne_nil h1, ?_, ?_, ?_⟩
  · intro hm
    exact h2 '/' hm rfl
  · intro e
    exact h3 (String.ext e)
  · intro e
    exact h4 (String.ext e)

theorem cleanRooted_data (s : String) (h : cleanRooted s = true) :
    s.data.head? = some '/' ∧ cleanChars s.data = s.data ∧ s.data ≠ ['/'] := by
  simp only [cleanRooted, Bool.and_eq_true, bne_iff_ne, ne_eq, beq_iff_eq] at h
  obtain ⟨⟨h1, h2⟩, h3⟩ := h
  exact ⟨h1, h2, fun e => h3 (String.ext e)⟩

/-- Appending a plain segment keeps a path clean, rooted and other than `/`. -/
theorem cleanRooted_append (p : List Char) (seg : String)
    (hp : p.head? = some '/' ∧ cleanChars p = p ∧ p ≠ ['/']) (hs : plainName seg = true) :
    (p ++ '/' :: seg.data).head? = some '/' ∧
      cleanChars (p ++ '/' :: seg.data) = p ++ '/' :: seg.data ∧
      p ++ '/' :: seg.data ≠ ['/'] := by
  obtain ⟨h1, h2, h3⟩ := hp
  obtain ⟨s1, s2, s3, s4⟩ := plainName_data seg hs
  refine ⟨?_, cleanChars_append_segment p seg.data h1 h2 h3 s1 s2 s3 s4, ?_⟩
  · cases p with
    | nil => simp at h1
    | cons c r => simpa using h1
  · cases p with
    | nil => simp at h1
    | cons c r => simp

theorem pathJoin_of_head_ne (e : String) (es : List String) (he : e ≠ "") :
    pathJoin (e :: es) = ⟨cleanChars (slashJoin ((e :: es).map String.data))⟩ := by
  rw [pathJoin_eq, if_neg (fun h => he (h e (by simp)))]
  simp [List.dropWhile_cons, he]

/-- C8 (as the code has it): `paramPath` is total; it takes the elements
prefix, team name, secret name when the secret name is in the team-scoped list,
and prefix, team name, pipeline name, secret name otherwise, and returns what
`path.Join` does with them: the empty path when all are empty, and otherwise
`path.Clean` of the elements from the first non-empty one on, joined with `/`. -/
theorem C8_paramPath_is_cleaned_join (cmd : Command) (param : String) :
    (cmd.isTeamParam param = true ↔ param ∈ cmd.TeamParams) ∧
    (param ∈ cmd.TeamParams →
      cmd.paramPath param =
        if ∀ e ∈ [cmd.PathPrefix, cmd.TeamName, param], e = "" then ""
        else ⟨cleanChars (slashJoin
          (([cmd.PathPrefix, cmd.TeamName, param].dropWhile (· = "")).map String.data))⟩) ∧
    (param ∉ cmd.TeamParams →
      cmd.paramPath param =
        if ∀ e ∈ [cmd.PathPrefix, cmd.TeamName, cmd.PipelineName, param], e = "" then ""
        else ⟨cleanChars (slashJoin
          (([cmd.PathPrefix, cmd.TeamName, cmd.PipelineName, param].dropWhile
            (· = "")).map String.data))⟩) := by
  have hiff : cmd.isTeamParam param = true ↔ param ∈ cmd.TeamParams :=
    isTeamParamLoop_iff param cmd.TeamParams
  refine ⟨hiff, ?_, ?_⟩
  · intro h
    rw [Command.paramPath, if_pos (hiff.mpr h), pathJoin_eq]
  · intro h
    rw [Command.paramPath, if_neg (fun e => h (hiff.mp e)), pathJoin_eq]

/-- With the secret name `".."`, team-scoped or not, the path is the cleaned
join: the last segment is not the secret name. -/
theorem C8_paramPath_is_cleaned_join_witness :
    (Command.mk "/concourse" "myteam" "mypipe" ["shared"] false).paramPath ".." =
      (if ∀ e ∈ ["/concourse", "myteam", "mypipe", ".."], e = "" then ""
        else ⟨cleanChars (slashJoin
          ((["/concourse", "myteam", "mypipe", ".."].dropWhile (· = "")).map String.data))⟩) ∧
    (Command.mk "/concourse" "myteam" "mypipe" ["shared"] false).paramPath "shared" =
      (if ∀ e ∈ ["/concourse", "myteam", "shared"], e = "" then ""
        else ⟨cleanChars (slashJoin
          ((["/concourse", "myteam", "shared"].dropWhile (· = "")).map String.data))⟩) :=
  ⟨(C8_paramPath_is_cleaned_join ⟨"/concourse", "myteam", "mypipe", ["shared"], false⟩
      "..").2.2 (by decide),
    (C8_paramPath_is_cleaned_join ⟨"/concourse", "myteam", "mypipe", ["shared"], false⟩
      "shared").2.1 (by decide)⟩

/-- C8, as stated, fails: for the secret name `".."` the path is
`/concourse/myteam`, and for the empty secret name it is
`/concourse/myteam/mypipe`; with an empty prefix the path is not rooted. -/
theorem C8_counterexample :
    (Command.mk "/concourse" "myteam" "mypipe" [] false).paramPath ".." =
      "/concourse/myteam" ∧
    (Command.mk "/concourse" "myteam" "mypipe" [] false).paramPath ".." ≠
      "/concourse" ++ "/" ++ "myteam" ++ "/" ++ "mypipe" ++ "/" ++ ".." ∧
    (Command.mk "/concourse" "myteam" "mypipe" [] false).paramPath "" =
      "/concourse/myteam/mypipe" ∧
    (Command.mk "" "myteam" "mypipe" [] false).paramPath "db-password" =
      "myteam/mypipe/db-password" := by
  decide

/-- For a clean rooted path prefix other than `/` and plain names, the path is
the plain concatenation. -/
theorem paramPath_of_clean_inputs (cmd : Command) (param : String)
    (hp : cleanRooted cmd.PathPrefix = true) (ht : plainName cmd.TeamName = true)
    (hq : plainName cmd.PipelineName = true) (hs : plainName param = true) :
    cmd.paramPath param =
      if param ∈ cmd.TeamParams then
        cmd.PathPrefix ++ "/" ++ cmd.TeamName ++ "/" ++ param
      else
        cmd.PathPrefix ++ "/" ++ cmd.TeamName ++ "/" ++ cmd.PipelineName ++ "/" ++ param := by
  have hiff : cmd.isTeamParam param = true ↔ param ∈ cmd.TeamParams :=
    isTeamParamLoop_iff param cmd.TeamParams
  have h0 := cleanRooted_data cmd.PathPrefix hp
  have hne : cmd.PathPrefix ≠ "" := by
    intro e
    rw [e] at h0
    simp at h0
  have h1 := cleanRooted_append _ cmd.TeamName h0 ht
  by_cases hm : param ∈ cmd.TeamParams
  · rw [Command.paramPath, if_pos (hiff.mpr hm), if_pos hm, pathJoin_of_head_ne _ _ hne]
    have h2 := cleanRooted_append _ param h1 hs
    apply String.ext
    simp only [List.map, slashJoin, String.data_append]
    have e : cmd.PathPrefix.data ++ '/' :: (cmd.TeamName.data ++ '/' :: param.data) =
        cmd.PathPrefix.data ++ '/' :: cmd.TeamName.data ++ '/' :: param.data := by simp
    rw [e, h2.2.1]
    simp
  · rw [Command.paramPath, if_neg (fun e => hm (hiff.mp e)), if_neg hm,
      pathJoin_of_head_ne _ _ hne]
    have h2 := cleanRooted_append _ cmd.PipelineName h1 hq
    have h3 := cleanRooted_append _ param h2 hs
    apply String.ext
    simp only [List.map, slashJoin, String.data_append]
    have e : cmd.PathPrefix.data ++ '/' :: (cmd.TeamName.data ++ '/' ::
          (cmd.PipelineName.data ++ '/' :: param.data)) =
        cmd.PathPrefix.data ++ '/' :: cmd.TeamName.data ++ '/' :: cmd.PipelineName.data ++
          '/' :: param.data := by simp
    rw [e, h3.2.1]
    simp

/-- C9 (as the code has it): for a clean rooted prefix other than the root `/`
itself, and team, pipeline and secret names that are plain (not empty, without
`/`, neither `.` nor `..`), `paramPath` returns exactly
`prefix/team/pipeline/secret` when the secret is not listed as team-scoped and
exactly `prefix/team/secret` when it is. -/
theorem C9_clean_inputs_concatenate (cmd : Command) (param : String)
    (hp : cleanRooted cmd.PathPrefix = true) (ht : plainName cmd.TeamName = true)
    (hq : plainName cmd.PipelineName = true) (hs : plainName param = true) :
    cmd.paramPath param =
      if param ∈ cmd.TeamParams then
        cmd.PathPrefix ++ "/" ++ cmd.TeamName ++ "/" ++ param
      else
        cmd.PathPrefix ++ "/" ++ cmd.TeamName ++ "/" ++ cmd.PipelineName ++ "/" ++ param :=
  paramPath_of_clean_inputs cmd param hp ht hq hs

/-- The path derivation of the specification: `/concourse`, `myteam`, `mypipe`
and `db-password`, pipeline-scoped and team-scoped. -/
theorem C9_clean_inputs_concatenate_witness :
    (Command.mk "/concourse" "myteam" "mypipe" [] false).paramPath "db-password" =
      (if "db-password" ∈ ([] : List String) then
        "/concourse" ++ "/" ++ "myteam" ++ "/" ++ "db-password"
      else "/concourse" ++ "/" ++ "myteam" ++ "/" ++ "mypipe" ++ "/" ++ "db-password") ∧
    (Command.mk "/concourse" "myteam" "mypipe" ["db-password"] false).paramPath "db-password" =
      (if "db-password" ∈ ["db-password"] then
        "/concourse" ++ "/" ++ "myteam" ++ "/" ++ "db-password"
      else "/concourse" ++ "/" ++ "myteam" ++ "/" ++ "mypipe" ++ "/" ++ "db-password") :=
  ⟨C9_clean_inputs_concatenate ⟨"/concourse", "myteam", "mypipe", [], false⟩ "db-password"
      (by decide) (by decide) (by decide) (by decide),
    C9_clean_inputs_concatenate ⟨"/concourse", "myteam", "mypipe", ["db-password"], false⟩
      "db-password" (by decide) (by decide) (by decide) (by decide)⟩

/-- C9, as stated, fails at the root prefix: `/` is rooted and clean, the names
are plain, and the path is `/myteam/mypipe/db-password`, not
`//myteam/mypipe/db-password`. -/
theorem C9_counterexample :
    ("/".data.head? = some '/' ∧ cleanChars "/".data = "/".data) ∧
    (plainName "myteam" = true ∧ plainName "mypipe" = true ∧
      plainName "db-password" = true) ∧
    (Command.mk "/" "myteam" "mypipe" [] false).paramPath "db-password" =
      "/myteam/mypipe/db-password" ∧
    (Command.mk "/" "myteam" "mypipe" [] false).paramPath "db-password" ≠
      "/" ++ "/" ++ "myteam" ++ "/" ++ "mypipe" ++ "/" ++ "db-password" := by
  decide

/-! ## The loop body in terms of aborts and stores -/

/-- The loop body stops exactly as `Diff.abort` says. -/
theorem processDiff_abort (pL : Char → Bool) (params : List (String × ConfigNode))
    (st : State) (d : Diff) (e : Abort) (h : d.abort pL = some e) :
    processDiff pL params st d = .error e := by
  obtain ⟨A, B, P⟩ := d
  cases A with
  | none =>
    cases B with
    | none =>
      simp only [Diff.abort, Option.some.injEq] at h
      subst h
      rfl
    | some n =>
      simp only [Diff.abort] at h
      simp only [processDiff, checkOrphaned, ConfigNode.Value]
      cases hn : n.asString with
      | none => rw [hn] at h; simp at h
      | some s =>
        rw [hn] at h
        by_cases hm : MatchString pL s = true
        · simp only [hm, if_true, Option.some.injEq] at h
          subst h
          simp [hm]
        · simp [hm] at h
  | some n =>
    cases B with
    | none =>
      simp only [Diff.abort] at h
      simp only [processDiff, checkOrphaned, ConfigNode.Value]
      cases hn : n.asString with
      | none => rw [hn] at h; simp at h
      | some s =>
        rw [hn] at h
        by_cases hm : MatchString pL s = true
        · simp only [hm, if_true, Option.some.injEq] at h
          subst h
          simp [hm]
        · simp [hm] at h
    | some m => simp [Diff.abort] at h

/-- When the loop body does not stop, it leaves the accumulator with the store of
`Diff.target` applied, or as it was when there is none. -/
theorem processDiff_ok (pL : Char → Bool) (params : List (String × ConfigNode))
    (st : State) (d : Diff) (h : d.abort pL = none) :
    ∃ log, processDiff pL params st d =
      .ok ⟨applyTarget (d.target pL params) st.vaultValues, log⟩ := by
  obtain ⟨A, B, P⟩ := d
  cases A with
  | none =>
    cases B with
    | none => simp [Diff.abort] at h
    | some n =>
      simp only [Diff.abort] at h
      simp only [processDiff, checkOrphaned, ConfigNode.Value, Diff.target, applyTarget]
      cases hn : n.asString with
      | none => exact ⟨_, rfl⟩
      | some s =>
        rw [hn] at h
        by_cases hm : MatchString pL s = true
        · simp [hm] at h
        · simp only [hm]
          exact ⟨_, rfl⟩
  | some n =>
    cases B with
    | none =>
      simp only [Diff.abort] at h
      simp only [processDiff, checkOrphaned, ConfigNode.Value, Diff.target, applyTarget]
      cases hn : n.asString with
      | none => exact ⟨_, rfl⟩
      | some s =>
        rw [hn] at h
        by_cases hm : MatchString pL s = true
        · simp [hm] at h
        · simp only [hm]
          exact ⟨_, rfl⟩
    | some m =>
      cases hn : n.asString with
      | none =>
        refine ⟨st.log, ?_⟩
        simp [processDiff, ConfigNode.Value, Diff.target, hn, applyTarget]
      | some strA =>
        cases hm : m.asString with
        | none =>
          refine ⟨st.log, ?_⟩
          simp [processDiff, ConfigNode.Value, Diff.target, hn, hm, applyTarget]
        | some strB =>
          cases hfa : FindStringSubmatch pL strA with
          | none =>
            refine ⟨st.log ++ [.skipNotParamA (".".intercalate P)], ?_⟩
            simp [processDiff, ConfigNode.Value, Diff.target, hn, hm, hfa, applyTarget]
          | some aParam =>
            cases hfb : FindStringSubmatch pL strB with
            | none =>
              refine ⟨st.log ++ [.skipNotParamB (".".intercalate P)], ?_⟩
              simp [processDiff, ConfigNode.Value, Diff.target, hn, hm, hfa, hfb, applyTarget]
            | some bParam =>
              cases hv : mapGet params aParam.2 with
              | none =>
                refine ⟨st.log ++ [.skipNoValue (".".intercalate P)], ?_⟩
                simp [processDiff, ConfigNode.Value, Diff.target, hn, hm, hfa, hfb, hv,
                  applyTarget]
              | some value =>
                refine ⟨st.log, ?_⟩
                simp [processDiff, ConfigNode.Value, Diff.target, hn, hm, hfa, hfb, hv,
                  applyTarget]

theorem asString_eq_some (n : ConfigNode) (s : String) :
    n.asString = some s ↔ n = .str s := by
  cases n <;> simp [ConfigNode.asString]

/-- A diff has a store exactly when it is a correlating one. -/
theorem target_eq_some (pL : Char → Bool) (params : List (String × ConfigNode))
    (d : Diff) (k f : String) (v : ConfigNode) :
    d.target pL params = some (k, f, v) ↔
      ∃ strA strB aParam bParam value,
        d.A = some (.str strA) ∧ d.B = some (.str strB) ∧
        FindStringSubmatch pL strA = some aParam ∧
        FindStringSubmatch pL strB = some bParam ∧
        mapGet params aParam.2 = some value ∧
        deriveNames bParam.2 = (k, f) ∧ value.Value = v := by
  obtain ⟨A, B, P⟩ := d
  constructor
  · intro h
    cases A with
    | none => simp [Diff.target] at h
    | some n =>
      cases B with
      | none => simp [Diff.target] at h
      | some m =>
        cases hn : n.asString with
        | none => simp [Diff.target, hn] at h
        | some strA =>
          cases hm : m.asString with
          | none => simp [Diff.target, hn, hm] at h
          | some strB =>
            cases hfa : FindStringSubmatch pL strA with
            | none => simp [Diff.target, hn, hm, hfa] at h
            | some aParam =>
              cases hfb : FindStringSubmatch pL strB with
              | none => simp [Diff.target, hn, hm, hfa, hfb] at h
              | some bParam =>
                cases hv : mapGet params aParam.2 with
                | none => simp [Diff.target, hn, hm, hfa, hfb, hv] at h
                | some value =>
                  simp only [Diff.target, hn, hm, hfa, hfb, hv, Option.map_some',
                    Option.some.injEq, Prod.mk.injEq] at h
                  obtain ⟨h1, h2, h3⟩ := h
                  refine ⟨strA, strB, aParam, bParam, value, ?_, ?_, hfa, hfb, hv, ?_, h3⟩
                  · rw [(asString_eq_some n strA).mp hn]
                  · rw [(asString_eq_some m strB).mp hm]
                  · exact Prod.ext h1 h2
  · rintro ⟨strA, strB, aParam, bParam, value, hA, hB, hfa, hfb, hv, hd, hval⟩
    simp only at hA hB
    subst hA hB
    simp [Diff.target, ConfigNode.asString, hfa, hfb, hv, hd, hval]

/-- The nil dereference happens exactly when both sides are absent. -/
theorem abort_eq_nilDeref (pL : Char → Bool) (d : Diff) :
    d.abort pL = some .nilDeref ↔ d.A = none ∧ d.B = none := by
  obtain ⟨A, B, P⟩ := d
  cases A with
  | none =>
    cases B with
    | none => simp [Diff.abort]
    | some n =>
      cases hn : n.asString with
      | none => simp [Diff.abort, hn]
      | some s => by_cases hm : MatchString pL s = true <;> simp [Diff.abort, hn, hm]
  | some n =>
    cases B with
    | none =>
      cases hn : n.asString with
      | none => simp [Diff.abort, hn]
      | some s => by_cases hm : MatchString pL s = true <;> simp [Diff.abort, hn, hm]
    | some m => simp [Diff.abort]

/-- The fatal exit happens exactly on an orphan: one side absent, the other a
string in which the pattern occurs. -/
theorem abort_eq_fatal (pL : Char → Bool) (d : Diff) (path value : String) :
    d.abort pL = some (.fatal path value) ↔
      ((d.A = none ∧ d.B = some (.str value)) ∨ (d.A = some (.str value) ∧ d.B = none)) ∧
        MatchString pL value = true ∧ path = ".".intercalate d.Path := by
  obtain ⟨A, B, P⟩ := d
  cases A with
  | none =>
    cases B with
    | none => simp [Diff.abort]
    | some n =>
      cases n with
      | str s =>
        by_cases hm : MatchString pL s = true
        · simp only [Diff.abort, ConfigNode.asString, hm, if_true, Option.some.injEq,
            Abort.fatal.injEq, true_and, false_and, or_false, reduceCtorEq,
            ConfigNode.str.injEq]
          constructor
          · rintro ⟨h1, h2⟩
            exact ⟨h2, h2 ▸ hm, h1.symm⟩
          · rintro ⟨h1, _, h3⟩
            exact ⟨h3.symm, h1⟩
        · simp only [Diff.abort, ConfigNode.asString, hm, if_false, true_and, false_and,
            or_false, reduceCtorEq, Option.some.injEq, ConfigNode.str.injEq, false_iff,
            not_and]
          intro h1 h2
          exact absurd (h1 ▸ h2) hm
      | num _ => simp [Diff.abort, ConfigNode.asString]
      | bool _ => simp [Diff.abort, ConfigNode.asString]
      | seq _ => simp [Diff.abort, ConfigNode.asString]
      | map _ => simp [Diff.abort, ConfigNode.asString]
  | some n =>
    cases B with
    | none =>
      cases n with
      | str s =>
        by_cases hm : MatchString pL s = true
        · simp only [Diff.abort, ConfigNode.asString, hm, if_true, Option.some.injEq,
            Abort.fatal.injEq, and_true, and_false, false_or, reduceCtorEq,
            ConfigNode.str.injEq]
          constructor
          · rintro ⟨h1, h2⟩
            exact ⟨h2, h2 ▸ hm, h1.symm⟩
          · rintro ⟨h1, _, h3⟩
            exact ⟨h3.symm, h1⟩
        · simp only [Diff.abort, ConfigNode.asString, hm, if_false, and_true, and_false,
            false_or, reduceCtorEq, Option.some.injEq, ConfigNode.str.injEq, false_iff,
            not_and]
          intro h1 h2
          exact absurd (h1 ▸ h2) hm
      | num _ => simp [Diff.abort, ConfigNode.asString]
      | bool _ => simp [Diff.abort, ConfigNode.asString]
      | seq _ => simp [Diff.abort, ConfigNode.asString]
      | map _ => simp [Diff.abort, ConfigNode.asString]
    | some m => simp [Diff.abort]

/-- The pass stops at the first diff that aborts. -/
theorem correlate_error (pL : Char → Bool) (params : List (String × ConfigNode)) :
    ∀ (diffs : List Diff) (st : State), (∃ d ∈ diffs, d.abort pL ≠ none) →
      ∃ e, correlate pL params st diffs = .error e
  | [], _, h => by
    obtain ⟨d, hd, _⟩ := h
    simp at hd
  | d :: ds, st, h => by
    rw [correlate]
    cases ha : d.abort pL with
    | some e =>
      rw [processDiff_abort pL params st d e ha]
      exact ⟨e, rfl⟩
    | none =>
      obtain ⟨log, hl⟩ := processDiff_ok pL params st d ha
      rw [hl]
      apply correlate_error pL params ds
      obtain ⟨x, hx, hxa⟩ := h
      rcases List.mem_cons.mp hx with rfl | hx
      · exact absurd ha hxa
      · exact ⟨x, hx, hxa⟩

/-- A pass without an aborting diff ends with the stores of its diffs applied in
order. -/
theorem correlate_ok (pL : Char → Bool) (params : List (String × ConfigNode)) :
    ∀ (diffs : List Diff) (st : State), (∀ d ∈ diffs, d.abort pL = none) →
      ∃ log, correlate pL params st diffs =
        .ok ⟨storeAll (diffs.filterMap (Diff.target pL params)) st.vaultValues, log⟩
  | [], st, _ => ⟨st.log, rfl⟩
  | d :: ds, st, h => by
    obtain ⟨log, hl⟩ := processDiff_ok pL params st d (h d (by simp))
    obtain ⟨log2, hl2⟩ := correlate_ok pL params ds
      ⟨applyTarget (d.target pL params) st.vaultValues, log⟩
      (fun x hx => h x (List.mem_cons_of_mem _ hx))
    refine ⟨log2, ?_⟩
    rw [correlate, hl]
    show correlate pL params _ ds = _
    rw [hl2]
    cases ht : d.target pL params with
    | none => simp [List.filterMap_cons, ht, applyTarget]
    | some t => simp [List.filterMap_cons, ht, applyTarget, storeAll]

/-- A pass that ends met no aborting diff. -/
theorem abort_none_of_correlate_ok (pL : Char → Bool) (params : List (String × ConfigNode))
    (diffs : List Diff) (st st1 : State) (h : correlate pL params st diffs = .ok st1) :
    ∀ d ∈ diffs, d.abort pL = none := by
  intro d hd
  cases ha : d.abort pL with
  | none => rfl
  | some e =>
    obtain ⟨e2, he2⟩ := correlate_error pL params diffs st ⟨d, hd, by simp [ha]⟩
    rw [he2] at h
    cases h

/-- The accumulator a pass ends with. -/
theorem vaultValues_of_correlate_ok (pL : Char → Bool) (params : List (String × ConfigNode))
    (diffs : List Diff) (st st1 : State) (h : correlate pL params st diffs = .ok st1) :
    st1.vaultValues = storeAll (diffs.filterMap (Diff.target pL params)) st.vaultValues := by
  obtain ⟨log, hl⟩ := correlate_ok pL params diffs st
    (abort_none_of_correlate_ok pL params diffs st st1 h)
  rw [hl] at h
  injection h with h
  rw [← h]

theorem isOrphan_iff (pL : Char → Bool) (d : Diff) :
    d.isOrphan pL = true ↔ ∃ path s, d.abort pL = some (.fatal path s) := by
  obtain ⟨A, B, P⟩ := d
  cases A with
  | none =>
    cases B with
    | none => simp [Diff.isOrphan, Diff.abort]
    | some n =>
      cases n with
      | str s =>
        by_cases hm : MatchString pL s = true <;>
          simp [Diff.isOrphan, Diff.abort, ConfigNode.asString, hm]
      | num _ => simp [Diff.isOrphan, Diff.abort, ConfigNode.asString]
      | bool _ => simp [Diff.isOrphan, Diff.abort, ConfigNode.asString]
      | seq _ => simp [Diff.isOrphan, Diff.abort, ConfigNode.asString]
      | map _ => simp [Diff.isOrphan, Diff.abort, ConfigNode.asString]
  | some n =>
    cases B with
    | none =>
      cases n with
      | str s =>
        by_cases hm : MatchString pL s = true <;>
          simp [Diff.isOrphan, Diff.abort, ConfigNode.asString, hm]
      | num _ => simp [Diff.isOrphan, Diff.abort, ConfigNode.asString]
      | bool _ => simp [Diff.isOrphan, Diff.abort, ConfigNode.asString]
      | seq _ => simp [Diff.isOrphan, Diff.abort, ConfigNode.asString]
      | map _ => simp [Diff.isOrphan, Diff.abort, ConfigNode.asString]
    | some m =>
      cases n <;> simp [Diff.isOrphan, Diff.abort]

/-- With a side present, a diff aborts exactly when it is an orphan. -/
theorem abort_ne_none_iff (pL : Char → Bool) (d : Diff) (hp : d.A ≠ none ∨ d.B ≠ none) :
    d.abort pL ≠ none ↔ d.isOrphan pL = true := by
  rw [isOrphan_iff]
  constructor
  · intro h
    cases ha : d.abort pL with
    | none => exact absurd ha h
    | some e =>
      cases e with
      | fatal path s => exact ⟨path, s, rfl⟩
      | nilDeref =>
        obtain ⟨h1, h2⟩ := (abort_eq_nilDeref pL d).mp ha
        rcases hp with hp | hp
        · exact absurd h1 hp
        · exact absurd h2 hp
  · rintro ⟨path, s, h⟩
    simp [h]

/-- The accumulator the loop body leaves when it goes on. -/
theorem vaultValues_of_processDiff_ok (pL : Char → Bool)
    (params : List (String × ConfigNode)) (st st1 : State) (d : Diff)
    (h : processDiff pL params st d = .ok st1) :
    d.abort pL = none ∧ st1.vaultValues = applyTarget (d.target pL params) st.vaultValues := by
  cases ha : d.abort pL with
  | some e =>
    rw [processDiff_abort pL params st d e ha] at h
    cases h
  | none =>
    obtain ⟨log, hl⟩ := processDiff_ok pL params st d ha
    rw [hl] at h
    injection h with h
    exact ⟨rfl, by rw [← h]⟩

/-- C11 (as the code has it): processing a diff changes the accumulator only
when extraction finds a placeholder on both sides. For a diff with a side
absent, or a side that is not a string scalar, or a before string in which the
pattern occurs nowhere, or such an after string: whenever the loop body goes on,
the accumulator is as it was; and it does go on, with the accumulator as it
was, when both sides are present. -/
theorem C11_only_correlation_changes_accumulator (pL : Char → Bool)
    (params : List (String × ConfigNode)) (st : State) (d : Diff)
    (h : d.A = none ∨ d.B = none ∨
      (∃ a, d.A = some a ∧ a.asString = none) ∨
      (∃ b, d.B = some b ∧ b.asString = none) ∨
      (∃ strA, d.A = some (.str strA) ∧ FindStringSubmatch pL strA = none) ∨
      (∃ strB, d.B = some (.str strB) ∧ FindStringSubmatch pL strB = none)) :
    (∀ st1, processDiff pL params st d = .ok st1 → st1.vaultValues = st.vaultValues) ∧
    (d.A ≠ none → d.B ≠ none →
      ∃ st1, processDiff pL params st d = .ok st1 ∧ st1.vaultValues = st.vaultValues) := by
  have ht : d.target pL params = none := by
    cases hx : d.target pL params with
    | none => rfl
    | some t =>
      obtain ⟨k, f, v⟩ := t
      obtain ⟨strA, strB, aParam, bParam, value, hA, hB, hfa, hfb, _, _, _⟩ :=
        (target_eq_some pL params d k f v).mp hx
      rcases h with h | h | ⟨a, h1, h2⟩ | ⟨b, h1, h2⟩ | ⟨s, h1, h2⟩ | ⟨s, h1, h2⟩
      · rw [hA] at h
        cases h
      · rw [hB] at h
        cases h
      · rw [hA] at h1
        injection h1 with h1
        subst h1
        simp [ConfigNode.asString] at h2
      · rw [hB] at h1
        injection h1 with h1
        subst h1
        simp [ConfigNode.asString] at h2
      · rw [hA] at h1
        injection h1 with h1
        injection h1 with h1
        subst h1
        rw [hfa] at h2
        cases h2
      · rw [hB] at h1
        injection h1 with h1
        injection h1 with h1
        subst h1
        rw [hfb] at h2
        cases h2
  constructor
  · intro st1 h1
    have := (vaultValues_of_processDiff_ok pL params st st1 d h1).2
    rw [ht] at this
    exact this
  · intro hA hB
    have ha : d.abort pL = none := by
      obtain ⟨A, B, P⟩ := d
      cases A with
      | none => exact absurd rfl hA
      | some n =>
        cases B with
        | none => exact absurd rfl hB
        | some m => rfl
    obtain ⟨log, hl⟩ := processDiff_ok pL params st d ha
    rw [ht] at hl
    exact ⟨_, hl, rfl⟩

/-- A literal edit from `"1"` to `"((new))"` on an accumulator that holds
`other.value`: the loop body goes on and the accumulator is as it was. -/
theorem C11_only_correlation_changes_accumulator_witness :
    (∀ st1, processDiff latinLetter [("1", .str "admin")]
        ⟨[("other", [("value", .str "x")])], []⟩
        ⟨some (.str "1"), some (.str "((new))"), ["a"]⟩ = .ok st1 →
      st1.vaultValues = [("other", [("value", .str "x")])]) ∧
    ∃ st1, processDiff latinLetter [("1", .str "admin")]
        ⟨[("other", [("value", .str "x")])], []⟩
        ⟨some (.str "1"), some (.str "((new))"), ["a"]⟩ = .ok st1 ∧
      st1.vaultValues = [("other", [("value", .str "x")])] :=
  have h := C11_only_correlation_changes_accumulator latinLetter [("1", .str "admin")]
    ⟨[("other", [("value", .str "x")])], []⟩
    ⟨some (.str "1"), some (.str "((new))"), ["a"]⟩
    (Or.inr (Or.inr (Or.inr (Or.inr (Or.inl ⟨"1", rfl, by decide⟩)))))
  ⟨h.1, h.2 (by simp) (by simp)⟩

/-- C12: for a diff list in which every entry has a side present, the pass
aborts if and only if some entry is an orphan (one side absent, the other a
string scalar in which the pattern occurs); when there is none, the pass
returns an accumulator and every entry of the list is reached and processed,
on the state the entries before it left. -/
theorem C12_pass_aborts_iff_orphan (pL : Char → Bool)
    (params : List (String × ConfigNode)) (diffs : List Diff) (st : State)
    (hp : ∀ d ∈ diffs, d.A ≠ none ∨ d.B ≠ none) :
    ((∃ e, correlate pL params st diffs = .error e) ↔ ∃ d ∈ diffs, d.isOrphan pL = true) ∧
    ((∀ d ∈ diffs, d.isOrphan pL = false) →
      (∃ st1, correlate pL params st diffs = .ok st1) ∧
      ∀ pre d post, diffs = pre ++ d :: post →
        ∃ sk sk1, correlate pL params st pre = .ok sk ∧
          processDiff pL params sk d = .ok sk1) := by
  have hnone : (∀ d ∈ diffs, d.isOrphan pL = false) → ∀ d ∈ diffs, d.abort pL = none := by
    intro h d hd
    by_contra hc
    have := (abort_ne_none_iff pL d (hp d hd)).mp hc
    rw [h d hd] at this
    cases this
  refine ⟨⟨?_, ?_⟩, ?_⟩
  · rintro ⟨e, he⟩
    by_contra hc
    have hall : ∀ d ∈ diffs, d.isOrphan pL = false := by
      intro d hd
      cases ho : d.isOrphan pL with
      | false => rfl
      | true => exact absurd ⟨d, hd, ho⟩ hc
    obtain ⟨log, hl⟩ := correlate_ok pL params diffs st (hnone hall)
    rw [hl] at he
    cases he
  · rintro ⟨d, hd, ho⟩
    exact correlate_error pL params diffs st
      ⟨d, hd, (abort_ne_none_iff pL d (hp d hd)).mpr ho⟩
  · intro hall
    have ha := hnone hall
    obtain ⟨log, hl⟩ := correlate_ok pL params diffs st ha
    refine ⟨⟨_, hl⟩, ?_⟩
    intro pre d post hsplit
    obtain ⟨log1, hl1⟩ := correlate_ok pL params pre st
      (fun x hx => ha x (by rw [hsplit]; exact List.mem_append_left _ hx))
    obtain ⟨log2, hl2⟩ := processDiff_ok pL params
      ⟨storeAll (pre.filterMap (Diff.target pL params)) st.vaultValues, log1⟩ d
      (ha d (by rw [hsplit]; simp))
    exact ⟨_, _, hl1, hl2⟩

/-- A literal edit, an added key with a plain value and a correlating entry: no
orphan, the pass returns, and the last entry is reached. -/
theorem C12_pass_aborts_iff_orphan_witness :
    (∃ st1, correlate latinLetter [("old-name", .str "admin")] ⟨[], []⟩
      [⟨some (.str "1"), some (.str "2"), ["c"]⟩, ⟨none, some (.str "plain"), ["b"]⟩,
        ⟨some (.str "((old-name))"), some (.str "((new-name.user))"), ["a"]⟩] = .ok st1) ∧
    ∃ sk sk1, correlate latinLetter [("old-name", .str "admin")] ⟨[], []⟩
        [⟨some (.str "1"), some (.str "2"), ["c"]⟩, ⟨none, some (.str "plain"), ["b"]⟩] =
          .ok sk ∧
      processDiff latinLetter [("old-name", .str "admin")] sk
        ⟨some (.str "((old-name))"), some (.str "((new-name.user))"), ["a"]⟩ = .ok sk1 :=
  have h := (C12_pass_aborts_iff_orphan latinLetter [("old-name", .str "admin")]
    [⟨some (.str "1"), some (.str "2"), ["c"]⟩, ⟨none, some (.str "plain"), ["b"]⟩,
      ⟨some (.str "((old-name))"), some (.str "((new-name.user))"), ["a"]⟩] ⟨[], []⟩
    (by
      intro d hd
      simp only [List.mem_cons, List.mem_singleton, List.not_mem_nil, or_false] at hd
      rcases hd with rfl | rfl | rfl <;> simp)).2
    (by
      intro d hd
      simp only [List.mem_cons, List.mem_singleton, List.not_mem_nil, or_false] at hd
      rcases hd with rfl | rfl | rfl <;> decide)
  ⟨h.1, h.2 [⟨some (.str "1"), some (.str "2"), ["c"]⟩, ⟨none, some (.str "plain"), ["b"]⟩]
    ⟨some (.str "((old-name))"), some (.str "((new-name.user))"), ["a"]⟩ [] rfl⟩

/-- C19: processing a diff dereferences an absent node (the nil dereference of
`b.Value()` in `checkOrphaned`) exactly when both sides are absent; so does each
of the two `checkOrphaned` calls, and with a side present neither call nor the
loop body reaches it. -/
theorem C19_nil_dereference_iff_both_absent (pL : Char → Bool)
    (params : List (String × ConfigNode)) (st : State) (d : Diff) :
    (processDiff pL params st d = .error .nilDeref ↔ d.A = none ∧ d.B = none) ∧
    (checkOrphaned pL (".".intercalate d.Path) d.A d.B = .error .nilDeref ↔
      d.A = none ∧ d.B = none) ∧
    (checkOrphaned pL (".".intercalate d.Path) d.B d.A = .error .nilDeref ↔
      d.A = none ∧ d.B = none) := by
  refine ⟨⟨?_, ?_⟩, ?_, ?_⟩
  · intro h
    cases ha : d.abort pL with
    | none =>
      obtain ⟨log, hl⟩ := processDiff_ok pL params st d ha
      rw [hl] at h
      cases h
    | some e =>
      rw [processDiff_abort pL params st d e ha] at h
      injection h with h
      subst h
      exact (abort_eq_nilDeref pL d).mp ha
  · intro h
    exact processDiff_abort pL params st d _ ((abort_eq_nilDeref pL d).mpr h)
  · obtain ⟨A, B, P⟩ := d
    cases A with
    | none =>
      cases B with
      | none => simp [checkOrphaned]
      | some n =>
        cases hn : n.asString with
        | none => simp [checkOrphaned, ConfigNode.Value, hn]
        | some s =>
          by_cases hm : MatchString pL s = true <;>
            simp [checkOrphaned, ConfigNode.Value, hn, hm]
    | some n => simp [checkOrphaned]
  · obtain ⟨A, B, P⟩ := d
    cases B with
    | none =>
      cases A with
      | none => simp [checkOrphaned]
      | some n =>
        cases hn : n.asString with
        | none => simp [checkOrphaned, ConfigNode.Value, hn]
        | some s =>
          by_cases hm : MatchString pL s = true <;>
            simp [checkOrphaned, ConfigNode.Value, hn, hm]
    | some n => simp [checkOrphaned]

/-! ## Lemmas on lists of stores -/

theorem entry_storeField (vv : VaultValues) (k f k2 f2 : String) (v : ConfigNode) :
    (storeField vv k f v).entry k2 f2 =
      if (k2, f2) = (k, f) then some v else vv.entry k2 f2 := by
  by_cases h : (k2, f2) = (k, f)
  · rw [if_pos h]
    injection h with h1 h2
    subst h1 h2
    exact entry_storeField_self vv k2 f2 v
  · rw [if_neg h]
    exact entry_storeField_other vv k f k2 f2 v h

theorem mapGet_storeField_isSome (vv : VaultValues) (k f k2 : String) (v : ConfigNode) :
    (mapGet (storeField vv k f v) k2).isSome = (decide (k2 = k) || (mapGet vv k2).isSome) := by
  unfold storeField
  by_cases hk : k2 = k
  · subst hk
    cases mapGet vv k2 <;> simp [mapGet_mapSet_self]
  · cases mapGet vv k <;> simp [mapGet_mapSet_other _ _ _ hk, hk]

theorem storeAll_append (ts us : List Target) (vv : VaultValues) :
    storeAll (ts ++ us) vv = storeAll us (storeAll ts vv) := by
  induction ts generalizing vv with
  | nil => rfl
  | cons t ts ih => exact ih _

/-- A store list leaves alone every entry none of its stores names. -/
theorem entry_storeAll_of_not_mem (s f : String) :
    ∀ (ts : List Target) (vv : VaultValues), (∀ t ∈ ts, (t.1, t.2.1) ≠ (s, f)) →
      (storeAll ts vv).entry s f = vv.entry s f
  | [], _, _ => rfl
  | t :: ts, vv, h => by
    rw [storeAll, entry_storeAll_of_not_mem s f ts _ (fun x hx => h x (List.mem_cons_of_mem _ hx)),
      entry_storeField, if_neg (fun e => h t (by simp) e.symm)]

/-- Every entry a store list leaves was there before or was stored by it. -/
theorem entry_storeAll_source (s f : String) (v : ConfigNode) :
    ∀ (ts : List Target) (vv : VaultValues), (storeAll ts vv).entry s f = some v →
      vv.entry s f = some v ∨ (s, f, v) ∈ ts
  | [], _, h => Or.inl h
  | t :: ts, vv, h => by
    rcases entry_storeAll_source s f v ts _ h with h1 | h1
    · rw [entry_storeField] at h1
      by_cases hk : (s, f) = (t.1, t.2.1)
      · rw [if_pos hk] at h1
        injection h1 with h1
        injection hk with hk1 hk2
        right
        have : t = (s, f, v) := by
          obtain ⟨a, b, c⟩ := t
          simp only at hk1 hk2 h1
          rw [hk1, hk2, h1]
        rw [this]
        simp
      · rw [if_neg hk] at h1
        exact Or.inl h1
    · exact Or.inr (List.mem_cons_of_mem _ h1)

theorem mapSet_ne_nil {α : Type} (m : List (String × α)) (k : String) (v : α) :
    mapSet m k v ≠ [] := by
  cases m with
  | nil => simp [mapSet]
  | cons e m =>
    obtain ⟨k1, v1⟩ := e
    by_cases h : k1 = k <;> simp [mapSet, h]

theorem mem_mapSet {α : Type} (k : String) (v : α) :
    ∀ (m : List (String × α)) (e : String × α), e ∈ mapSet m k v → e ∈ m ∨ e = (k, v)
  | [], e, h => by
    simp [mapSet] at h
    exact Or.inr h
  | (k1, v1) :: m, e, h => by
    by_cases hk : k1 = k
    · simp only [mapSet, if_pos hk, List.mem_cons] at h
      rcases h with h | h
      · exact Or.inr h
      · exact Or.inl (List.mem_cons_of_mem _ h)
    · simp only [mapSet, if_neg hk, List.mem_cons] at h
      rcases h with h | h
      · exact Or.inl (by rw [h]; simp)
      · rcases mem_mapSet k v m e h with h2 | h2
        · exact Or.inl (List.mem_cons_of_mem _ h2)
        · exact Or.inr h2

theorem mem_of_mapGet {α : Type} (k : String) (v : α) :
    ∀ m : List (String × α), mapGet m k = some v → (k, v) ∈ m
  | [], h => by simp [mapGet] at h
  | (k1, v1) :: m, h => by
    by_cases hk : k1 = k
    · simp only [mapGet, if_pos hk, Option.some.injEq] at h
      rw [hk, h]
      simp
    · simp only [mapGet, if_neg hk] at h
      exact List.mem_cons_of_mem _ (mem_of_mapGet k v m h)

/-- A store keeps every record non-empty. -/
theorem storeField_records_ne_nil (vv : VaultValues) (k f : String) (v : ConfigNode)
    (h : ∀ e ∈ vv, e.2 ≠ []) : ∀ e ∈ storeField vv k f v, e.2 ≠ [] := by
  intro e he
  unfold storeField at he
  cases hg : mapGet vv k with
  | none =>
    rw [hg] at he
    rcases mem_mapSet _ _ _ _ he with h1 | h1
    · exact h e h1
    · rw [h1]
      exact mapSet_ne_nil _ _ _
  | some fields =>
    rw [hg] at he
    rcases mem_mapSet _ _ _ _ he with h1 | h1
    · exact h e h1
    · rw [h1]
      exact mapSet_ne_nil _ _ _

theorem storeAll_records_ne_nil :
    ∀ (ts : List Target) (vv : VaultValues), (∀ e ∈ vv, e.2 ≠ []) →
      ∀ e ∈ storeAll ts vv, e.2 ≠ []
  | [], _, h => h
  | t :: ts, vv, h =>
    storeAll_records_ne_nil ts _ (storeField_records_ne_nil vv t.1 t.2.1 t.2.2 h)

/-- C13 (as the code has it): the accumulator invariant. Starting from the
empty accumulator, after any number `n` of entries of a diff list, every entry
`(secretName, fieldName) -> value` of the accumulator is accounted for by one of
those `n` diffs: its before and after are both strings in which the pattern
occurs (extraction finds a name in each, the string need not be a placeholder
as a whole), the name extracted from the before string is a key of the
parameters holding that value, and the name extracted from the after string
derives `(secretName, fieldName)`. -/
theorem C13_entries_come_from_resolved_pairs (pL : Char → Bool)
    (params : List (String × ConfigNode)) (diffs : List Diff) (n : Nat) (st : State)
    (h : correlate pL params ⟨[], []⟩ (diffs.take n) = .ok st)
    (secretName fieldName : String) (v : ConfigNode)
    (he : st.vaultValues.entry secretName fieldName = some v) :
    ∃ d ∈ diffs.take n, ∃ strA strB aParam bParam value,
      d.A = some (.str strA) ∧ d.B = some (.str strB) ∧
      FindStringSubmatch pL strA = some aParam ∧
      FindStringSubmatch pL strB = some bParam ∧
      mapGet params aParam.2 = some value ∧
      deriveNames bParam.2 = (secretName, fieldName) ∧ value.Value = v := by
  rw [vaultValues_of_correlate_ok pL params _ _ _ h] at he
  rcases entry_storeAll_source secretName fieldName v _ _ he with h1 | h1
  · simp [VaultValues.entry, mapGet] at h1
  · obtain ⟨d, hd, ht⟩ := List.mem_filterMap.mp h1
    exact ⟨d, hd, (target_eq_some pL params d secretName fieldName v).mp ht⟩

/-- After both entries of the list, `new-name.user` holds `"admin"`, and the
first diff accounts for it. -/
theorem C13_entries_come_from_resolved_pairs_witness :
    ∃ d ∈ List.take 2 [(⟨some (.str "((old-name))"), some (.str "((new-name.user))"), ["a"]⟩ : Diff),
        ⟨some (.str "1"), some (.str "2"), ["c"]⟩],
      ∃ strA strB aParam bParam value,
      d.A = some (.str strA) ∧ d.B = some (.str strB) ∧
      FindStringSubmatch latinLetter strA = some aParam ∧
      FindStringSubmatch latinLetter strB = some bParam ∧
      mapGet [("old-name", ConfigNode.str "admin")] aParam.2 = some value ∧
      deriveNames bParam.2 = ("new-name", "user") ∧ value.Value = .str "admin" :=
  C13_entries_come_from_resolved_pairs latinLetter [("old-name", .str "admin")]
    [⟨some (.str "((old-name))"), some (.str "((new-name.user))"), ["a"]⟩,
      ⟨some (.str "1"), some (.str "2"), ["c"]⟩] 2
    ⟨[("new-name", [("user", .str "admin")])],
      [.skipNotParamA "c"]⟩ rfl "new-name" "user" (.str "admin") rfl

/-- C14: last write wins. When a pass that does not abort holds a correlating
entry `d` with target `(secretName, fieldName)` and value `v`, and no later
entry of the list has that target, the final accumulator holds `v` at the
target, whatever earlier entries stored there; and the step that processes `d`
leaves every other entry of the accumulator, the other fields of that secret
among them, as it was. -/
theorem C14_last_write_wins (pL : Char → Bool) (params : List (String × ConfigNode))
    (st st1 : State) (pre post : List Diff) (d : Diff)
    (secretName fieldName : String) (v : ConfigNode)
    (hd : d.target pL params = some (secretName, fieldName, v))
    (hlast : ∀ e ∈ post, ∀ v2, e.target pL params ≠ some (secretName, fieldName, v2))
    (hrun : correlate pL params st (pre ++ d :: post) = .ok st1) :
    st1.vaultValues.entry secretName fieldName = some v ∧
    ∃ sk sk1, correlate pL params st pre = .ok sk ∧
      processDiff pL params sk d = .ok sk1 ∧
      ∀ s2 f2, (s2, f2) ≠ (secretName, fieldName) →
        sk1.vaultValues.entry s2 f2 = sk.vaultValues.entry s2 f2 := by
  have ha := abort_none_of_correlate_ok pL params _ st st1 hrun
  constructor
  · rw [vaultValues_of_correlate_ok pL params _ _ _ hrun, List.filterMap_append,
      storeAll_append, List.filterMap_cons, hd, storeAll]
    rw [entry_storeAll_of_not_mem secretName fieldName, entry_storeField_self]
    intro t ht hk
    obtain ⟨e, he, hte⟩ := List.mem_filterMap.mp ht
    obtain ⟨a, b, c⟩ := t
    simp only [Prod.mk.injEq] at hk
    obtain ⟨h1, h2⟩ := hk
    subst h1 h2
    exact hlast e he c hte
  · obtain ⟨log1, hl1⟩ := correlate_ok pL params pre st
      (fun x hx => ha x (List.mem_append_left _ hx))
    obtain ⟨log2, hl2⟩ := processDiff_ok pL params
      ⟨storeAll (pre.filterMap (Diff.target pL params)) st.vaultValues, log1⟩ d
      (ha d (by simp))
    refine ⟨_, _, hl1, hl2, ?_⟩
    intro s2 f2 hne
    rw [hd]
    exact entry_storeField_other _ _ _ _ _ _ hne

/-- Two renames to `new.user`, from `a` (value `"1"`) and then from `b` (value
`"2"`), with a store into `new.pass` between them: `new.user` ends as `"2"` and
the overwrite leaves `new.pass` alone. -/
theorem C14_last_write_wins_witness :
    VaultValues.entry [("new", [("user", ConfigNode.str "2"), ("pass", .str "1")])]
      "new" "user" = some (.str "2") ∧
    ∃ sk sk1, correlate latinLetter [("a", .str "1"), ("b", .str "2")] ⟨[], []⟩
        [⟨some (.str "((a))"), some (.str "((new.user))"), ["x"]⟩,
          ⟨some (.str "((a))"), some (.str "((new.pass))"), ["y"]⟩] = .ok sk ∧
      processDiff latinLetter [("a", .str "1"), ("b", .str "2")] sk
        ⟨some (.str "((b))"), some (.str "((new.user))"), ["z"]⟩ = .ok sk1 ∧
      ∀ s2 f2, (s2, f2) ≠ ("new", "user") →
        sk1.vaultValues.entry s2 f2 = sk.vaultValues.entry s2 f2 :=
  C14_last_write_wins latinLetter [("a", .str "1"), ("b", .str "2")] ⟨[], []⟩
    ⟨[("new", [("user", .str "2"), ("pass", .str "1")])], [.skipNotParamA "w"]⟩
    [⟨some (.str "((a))"), some (.str "((new.user))"), ["x"]⟩,
      ⟨some (.str "((a))"), some (.str "((new.pass))"), ["y"]⟩]
    [⟨some (.str "lit"), some (.str "((new.user))"), ["w"]⟩]
    ⟨some (.str "((b))"), some (.str "((new.user))"), ["z"]⟩
    "new" "user" (.str "2") rfl
    (by
      intro e he v2
      simp only [List.mem_singleton] at he
      subst he
      intro h
      have h2 : (⟨some (.str "lit"), some (.str "((new.user))"), ["w"]⟩ : Diff).target
          latinLetter [("a", .str "1"), ("b", .str "2")] = none := rfl
      rw [h2] at h
      cases h)
    rfl

/-- C20: starting from the empty accumulator, after any number `n` of entries of
a diff list, every secret name that is a key of the accumulator maps to a record
with at least one field. -/
theorem C20_records_never_empty (pL : Char → Bool) (params : List (String × ConfigNode))
    (diffs : List Diff) (n : Nat) (st : State)
    (h : correlate pL params ⟨[], []⟩ (diffs.take n) = .ok st)
    (secretName : String) (fields : Fields)
    (hk : mapGet st.vaultValues secretName = some fields) :
    fields ≠ [] := by
  have hmem := mem_of_mapGet secretName fields _ hk
  rw [vaultValues_of_correlate_ok pL params _ _ _ h] at hmem
  exact storeAll_records_ne_nil _ [] (by simp) _ hmem

/-- After the first of two entries the key `new-name` maps to the record that
holds `user`. -/
theorem C20_records_never_empty_witness :
    correlate latinLetter [("old-name", .str "admin")] ⟨[], []⟩
      (List.take 1 [⟨some (.str "((old-name))"), some (.str "((new-name.user))"), ["a"]⟩,
        ⟨some (.str "1"), some (.str "2"), ["c"]⟩]) =
      .ok ⟨[("new-name", [("user", .str "admin")])], []⟩ ∧
    mapGet [("new-name", [("user", ConfigNode.str "admin")])] "new-name" =
      some [("user", .str "admin")] ∧
    [("user", ConfigNode.str "admin")] ≠ [] :=
  ⟨rfl, rfl, C20_records_never_empty latinLetter [("old-name", .str "admin")]
    [⟨some (.str "((old-name))"), some (.str "((new-name.user))"), ["a"]⟩,
      ⟨some (.str "1"), some (.str "2"), ["c"]⟩] 1
    ⟨[("new-name", [("user", .str "admin")])], []⟩ rfl "new-name"
    [("user", .str "admin")] rfl⟩

/-! ## Stores in another order -/

theorem sameMap_refl (vv : VaultValues) : vv.sameMap vv :=
  fun _ => ⟨rfl, fun _ => rfl⟩

theorem sameMap_trans {a b c : VaultValues} (h1 : a.sameMap b) (h2 : b.sameMap c) :
    a.sameMap c :=
  fun k => ⟨(h1 k).1.trans (h2 k).1, fun f => ((h1 k).2 f).trans ((h2 k).2 f)⟩

/-- A store into the same map gives the same map. -/
theorem sameMap_storeField {a b : VaultValues} (h : a.sameMap b) (k f : String)
    (v : ConfigNode) : (storeField a k f v).sameMap (storeField b k f v) := by
  intro k2
  refine ⟨?_, fun f2 => ?_⟩
  · rw [mapGet_storeField_isSome, mapGet_storeField_isSome, (h k2).1]
  · rw [entry_storeField, entry_storeField, (h k2).2 f2]

theorem sameMap_storeAll :
    ∀ (ts : List Target) {a b : VaultValues}, a.sameMap b →
      (storeAll ts a).sameMap (storeAll ts b)
  | [], _, _, h => h
  | t :: ts, _, _, h => sameMap_storeAll ts (sameMap_storeField h t.1 t.2.1 t.2.2)

/-- Two stores with different targets give the same map in either order. -/
theorem sameMap_storeField_swap (vv : VaultValues) (k f k2 f2 : String)
    (v v2 : ConfigNode) (hne : (k, f) ≠ (k2, f2)) :
    (storeField (storeField vv k f v) k2 f2 v2).sameMap
      (storeField (storeField vv k2 f2 v2) k f v) := by
  intro k3
  refine ⟨?_, fun f3 => ?_⟩
  · simp only [mapGet_storeField_isSome]
    cases decide (k3 = k2) <;> cases decide (k3 = k) <;> rfl
  · simp only [entry_storeField]
    by_cases h1 : (k3, f3) = (k2, f2)
    · have h2 : (k3, f3) ≠ (k, f) := fun e => hne (e.symm.trans h1)
      rw [if_pos h1, if_neg h2, if_pos h1]
    · rw [if_neg h1, if_neg h1]

/-- The relation that two stores have different targets. -/
theorem targets_differ_symm :
    ∀ t u : Target, (t.1, t.2.1) ≠ (u.1, u.2.1) → (u.1, u.2.1) ≠ (t.1, t.2.1) :=
  fun _ _ h e => h e.symm

/-- Stores with pairwise different targets give the same map in any order. -/
theorem sameMap_storeAll_perm {ts us : List Target} (hperm : ts.Perm us) :
    ts.Pairwise (fun t u => (t.1, t.2.1) ≠ (u.1, u.2.1)) →
      ∀ vv : VaultValues, (storeAll ts vv).sameMap (storeAll us vv) := by
  induction hperm with
  | nil => exact fun _ vv => sameMap_refl vv
  | cons t _ ih =>
    intro hp vv
    exact ih (List.pairwise_cons.mp hp).2 _
  | swap a b l =>
    intro hp vv
    have hab : (b.1, b.2.1) ≠ (a.1, a.2.1) :=
      (List.pairwise_cons.mp hp).1 a (by simp)
    exact sameMap_storeAll l (sameMap_storeField_swap vv b.1 b.2.1 a.1 a.2.1 b.2.2 a.2.2 hab)
  | trans h1 _ ih1 ih2 =>
    intro hp vv
    have hp2 := (h1.pairwise_iff (fun {t u} h => targets_differ_symm t u h)).mp hp
    exact sameMap_trans (ih1 hp vv) (ih2 hp2 vv)

/-- The stores of a diff list inherit pairwise different targets. -/
theorem pairwise_targets (pL : Char → Bool) (params : List (String × ConfigNode)) :
    ∀ diffs : List Diff,
      diffs.Pairwise (fun d e => ∀ t u, d.target pL params = some t →
        e.target pL params = some u → (t.1, t.2.1) ≠ (u.1, u.2.1)) →
      (diffs.filterMap (Diff.target pL params)).Pairwise
        (fun t u => (t.1, t.2.1) ≠ (u.1, u.2.1))
  | [], _ => List.Pairwise.nil
  | d :: ds, h => by
    obtain ⟨h1, h2⟩ := List.pairwise_cons.mp h
    have ih := pairwise_targets pL params ds h2
    cases ht : d.target pL params with
    | none =>
      rw [List.filterMap_cons, ht]
      exact ih
    | some t =>
      rw [List.filterMap_cons, ht]
      refine List.pairwise_cons.mpr ⟨?_, ih⟩
      intro u hu
      obtain ⟨e, he, hte⟩ := List.mem_filterMap.mp hu
      exact h1 e he t u ht hte

/-- C15: order independence. For two diff lists that are permutations of each
other, in which no two correlating entries derive the same
`(secretName, fieldName)` target, the two passes from the same accumulator agree
on whether the run aborts, and when they do not abort they end with the same
map: the same secret names and under each the same fields and values. -/
theorem C15_order_independence (pL : Char → Bool) (params : List (String × ConfigNode))
    (st : State) (diffs1 diffs2 : List Diff) (hperm : diffs1.Perm diffs2)
    (huniq : diffs1.Pairwise (fun d e => ∀ t u, d.target pL params = some t →
      e.target pL params = some u → (t.1, t.2.1) ≠ (u.1, u.2.1))) :
    ((∃ e, correlate pL params st diffs1 = .error e) ↔
      (∃ e, correlate pL params st diffs2 = .error e)) ∧
    ∀ st1 st2, correlate pL params st diffs1 = .ok st1 →
      correlate pL params st diffs2 = .ok st2 →
      st1.vaultValues.sameMap st2.vaultValues := by
  have habort : ∀ l1 l2 : List Diff, l1.Perm l2 →
      (∃ e, correlate pL params st l1 = .error e) →
      ∃ e, correlate pL params st l2 = .error e := by
    intro l1 l2 hp ⟨e, he⟩
    by_contra hc
    have hall : ∀ d ∈ l2, d.abort pL = none := by
      intro d hd
      by_contra hx
      exact hc (correlate_error pL params l2 st ⟨d, hd, hx⟩)
    obtain ⟨log, hl⟩ := correlate_ok pL params l1 st
      (fun d hd => hall d (hp.mem_iff.mp hd))
    rw [hl] at he
    cases he
  refine ⟨⟨habort diffs1 diffs2 hperm, habort diffs2 diffs1 hperm.symm⟩, ?_⟩
  intro st1 st2 h1 h2
  rw [vaultValues_of_correlate_ok pL params _ _ _ h1,
    vaultValues_of_correlate_ok pL params _ _ _ h2]
  exact sameMap_storeAll_perm (hperm.filterMap _) (pairwise_targets pL params diffs1 huniq) _

/-- The renames `a -> p` and `b -> q` in either order: the two accumulators
list the secrets in a different order and are the same map. -/
theorem C15_order_independence_witness :
    VaultValues.sameMap
      [("p", [("value", ConfigNode.str "1")]), ("q", [("value", .str "2")])]
      [("q", [("value", ConfigNode.str "2")]), ("p", [("value", .str "1")])] :=
  (C15_order_independence latinLetter [("a", .str "1"), ("b", .str "2")] ⟨[], []⟩
    [⟨some (.str "((a))"), some (.str "((p))"), ["x"]⟩,
      ⟨some (.str "((b))"), some (.str "((q))"), ["y"]⟩]
    [⟨some (.str "((b))"), some (.str "((q))"), ["y"]⟩,
      ⟨some (.str "((a))"), some (.str "((p))"), ["x"]⟩]
    (List.Perm.swap _ _ _)
    (by
      refine List.pairwise_pair.mpr ?_
      intro t u ht hu
      have h1 : (⟨some (.str "((a))"), some (.str "((p))"), ["x"]⟩ : Diff).target latinLetter
          [("a", .str "1"), ("b", .str "2")] = some ("p", "value", .str "1") := rfl
      have h2 : (⟨some (.str "((b))"), some (.str "((q))"), ["y"]⟩ : Diff).target latinLetter
          [("a", .str "1"), ("b", .str "2")] = some ("q", "value", .str "2") := rfl
      rw [h1] at ht
      rw [h2] at hu
      injection ht with ht
      injection hu with hu
      subst ht hu
      decide)).2
    ⟨[("p", [("value", .str "1")]), ("q", [("value", .str "2")])], []⟩
    ⟨[("q", [("value", .str "2")]), ("p", [("value", .str "1")])], []⟩ rfl rfl

/-! ## Running the same stores again -/

theorem mapSet_of_mapGet {α : Type} (k : String) (v : α) :
    ∀ m : List (String × α), mapGet m k = some v → mapSet m k v = m
  | [], h => by simp [mapGet] at h
  | (k1, v1) :: m, h => by
    by_cases hk : k1 = k
    · simp only [mapGet, if_pos hk, Option.some.injEq] at h
      simp [mapSet, hk, h]
    · simp only [mapGet, if_neg hk] at h
      simp [mapSet, hk, mapSet_of_mapGet k v m h]

theorem mapSet_mapSet_same {α : Type} (k : String) (v v2 : α) :
    ∀ m : List (String × α), mapSet (mapSet m k v) k v2 = mapSet m k v2
  | [] => by simp [mapSet]
  | (k1, v1) :: m => by
    by_cases hk : k1 = k
    · simp [mapSet, hk]
    · simp [mapSet, hk, mapSet_mapSet_same k v v2 m]

/-- Stores under two keys commute when one of the keys is already there. -/
theorem mapSet_comm {α : Type} (k k2 : String) (a b : α) (hne : k ≠ k2) :
    ∀ m : List (String × α), mapGet m k ≠ none →
      mapSet (mapSet m k a) k2 b = mapSet (mapSet m k2 b) k a
  | [], h => by simp [mapGet] at h
  | (k1, v1) :: m, h => by
    by_cases h1 : k1 = k
    · have h2 : ¬ k1 = k2 := fun e => hne (h1.symm.trans e)
      have h3 : ¬ k = k2 := hne
      simp [mapSet, h1, h2, h3]
    · by_cases h2 : k1 = k2
      · have h3 : ¬ k2 = k := fun e => hne e.symm
        simp [mapSet, h1, h2, h3]
      · simp only [mapGet, if_neg h1] at h
        simp [mapSet, h1, h2, mapSet_comm k k2 a b hne m h]

/-- Storing the value an entry already holds changes nothing. -/
theorem storeField_of_entry (vv : VaultValues) (k f : String) (v : ConfigNode)
    (h : vv.entry k f = some v) : storeField vv k f v = vv := by
  unfold VaultValues.entry at h
  unfold storeField
  cases hg : mapGet vv k with
  | none => simp [hg] at h
  | some fields =>
    rw [hg] at h
    change mapGet fields f = some v at h
    simp only [mapSet_of_mapGet f v fields h, mapSet_of_mapGet k fields vv hg]

/-- A second store at the same target replaces the first. -/
theorem storeField_absorb (vv : VaultValues) (k f : String) (v v2 : ConfigNode) :
    storeField (storeField vv k f v) k f v2 = storeField vv k f v2 := by
  unfold storeField
  cases hg : mapGet vv k with
  | none => simp [mapGet_mapSet_self, mapSet_mapSet_same, mapSet]
  | some fields => simp [mapGet_mapSet_self, mapSet_mapSet_same]

/-- Stores at two targets commute when the entry of one is already there. -/
theorem storeField_comm (vv : VaultValues) (k f k2 f2 : String) (v v2 : ConfigNode)
    (hne : (k, f) ≠ (k2, f2)) (hp : vv.entry k f ≠ none) :
    storeField (storeField vv k f v) k2 f2 v2 =
      storeField (storeField vv k2 f2 v2) k f v := by
  unfold VaultValues.entry at hp
  cases hg : mapGet vv k with
  | none => simp [hg] at hp
  | some fields =>
    rw [hg] at hp
    change mapGet fields f ≠ none at hp
    by_cases hk : k = k2
    · subst hk
      have hf : f ≠ f2 := fun e => hne (by rw [e])
      simp only [storeField, hg, mapGet_mapSet_self, mapSet_mapSet_same]
      rw [mapSet_comm f f2 v v2 hf fields hp]
    · have hk2 : k2 ≠ k := fun e => hk e.symm
      have hkp : mapGet vv k ≠ none := by simp [hg]
      have e1 : storeField vv k f v = mapSet vv k (mapSet fields f v) := by
        simp [storeField, hg]
      cases hg2 : mapGet vv k2 with
      | none =>
        have e2 : storeField vv k2 f2 v2 = mapSet vv k2 (mapSet [] f2 v2) := by
          simp [storeField, hg2]
        rw [e1, e2]
        unfold storeField
        rw [mapGet_mapSet_other _ _ _ hk2, hg2, mapGet_mapSet_other _ _ _ hk, hg]
        exact mapSet_comm k k2 _ _ hk vv hkp
      | some fields2 =>
        have e2 : storeField vv k2 f2 v2 = mapSet vv k2 (mapSet fields2 f2 v2) := by
          simp [storeField, hg2]
        rw [e1, e2]
        unfold storeField
        rw [mapGet_mapSet_other _ _ _ hk2, hg2, mapGet_mapSet_other _ _ _ hk, hg]
        exact mapSet_comm k k2 _ _ hk vv hkp

theorem entry_storeAll_ne_none (s f : String) :
    ∀ (ts : List Target) (vv : VaultValues), vv.entry s f ≠ none →
      (storeAll ts vv).entry s f ≠ none
  | [], _, h => h
  | t :: ts, vv, h => by
    apply entry_storeAll_ne_none s f ts
    rw [entry_storeField]
    by_cases hk : (s, f) = (t.1, t.2.1)
    · simp [hk]
    · rw [if_neg hk]
      exact h

/-- A store that a later store of the list overwrites does not change what the
list leaves. -/
theorem storeAll_storeField_of_mem (s f : String) (v : ConfigNode) :
    ∀ (ts : List Target) (vv : VaultValues), vv.entry s f ≠ none →
      (∃ t ∈ ts, (t.1, t.2.1) = (s, f)) →
      storeAll ts (storeField vv s f v) = storeAll ts vv
  | [], _, _, h => by
    obtain ⟨t, ht, _⟩ := h
    simp at ht
  | a :: ts, vv, hp, h => by
    rw [storeAll, storeAll]
    by_cases ha : (a.1, a.2.1) = (s, f)
    · injection ha with h1 h2
      rw [h1, h2, storeField_absorb]
    · rw [storeField_comm vv s f a.1 a.2.1 v a.2.2 (fun e => ha e.symm) hp]
      apply storeAll_storeField_of_mem s f v ts
      · rw [entry_storeField, if_neg (fun e => ha e.symm)]
        exact hp
      · obtain ⟨t, ht, hte⟩ := h
        rcases List.mem_cons.mp ht with rfl | ht
        · exact absurd hte ha
        · exact ⟨t, ht, hte⟩

/-- Running a list of stores a second time changes nothing. -/
theorem storeAll_storeAll :
    ∀ (ts : List Target) (vv : VaultValues), storeAll ts (storeAll ts vv) = storeAll ts vv
  | [], _ => rfl
  | t :: ts, vv => by
    have ih := storeAll_storeAll ts (storeField vv t.1 t.2.1 t.2.2)
    have hpres : (storeAll ts (storeField vv t.1 t.2.1 t.2.2)).entry t.1 t.2.1 ≠ none := by
      apply entry_storeAll_ne_none
      rw [entry_storeField_self]
      simp
    show storeAll ts (storeField (storeAll ts (storeField vv t.1 t.2.1 t.2.2)) t.1 t.2.1 t.2.2) =
      storeAll ts (storeField vv t.1 t.2.1 t.2.2)
    by_cases hex : ∃ u ∈ ts, (u.1, u.2.1) = (t.1, t.2.1)
    · rw [storeAll_storeField_of_mem t.1 t.2.1 t.2.2 ts _ hpres hex, ih]
    · have hkeep : (storeAll ts (storeField vv t.1 t.2.1 t.2.2)).entry t.1 t.2.1 =
          some t.2.2 := by
        rw [entry_storeAll_of_not_mem t.1 t.2.1 ts _ (fun u hu e => hex ⟨u, hu, e⟩),
          entry_storeField_self]
      rw [storeField_of_entry _ _ _ _ hkeep, ih]

/-- C16: idempotence of correlation. `correlate` is a function of the parameters,
the starting accumulator and the diff list, so two runs on the same inputs give
the same accumulator; and when a pass does not abort, folding the same diff list
into the accumulator it produced does not abort either and leaves that
accumulator identical. -/
theorem C16_correlation_is_idempotent (pL : Char → Bool)
    (params : List (String × ConfigNode)) (diffs : List Diff) (st st1 : State)
    (h : correlate pL params st diffs = .ok st1) :
    ∃ st2, correlate pL params st1 diffs = .ok st2 ∧ st2.vaultValues = st1.vaultValues := by
  obtain ⟨log, hl⟩ := correlate_ok pL params diffs st1
    (abort_none_of_correlate_ok pL params diffs st st1 h)
  refine ⟨_, hl, ?_⟩
  show storeAll _ st1.vaultValues = st1.vaultValues
  rw [vaultValues_of_correlate_ok pL params _ _ _ h, storeAll_storeAll]

/-- Two renames to `new.user` and one to `new.pass`, run from the empty
accumulator and then again from the result. -/
theorem C16_correlation_is_idempotent_witness :
    ∃ st2, correlate latinLetter [("a", .str "1"), ("b", .str "2")]
        ⟨[("new", [("user", .str "2"), ("pass", .str "1")])], []⟩
        [⟨some (.str "((a))"), some (.str "((new.user))"), ["x"]⟩,
          ⟨some (.str "((a))"), some (.str "((new.pass))"), ["y"]⟩,
          ⟨some (.str "((b))"), some (.str "((new.user))"), ["z"]⟩] = .ok st2 ∧
      st2.vaultValues = [("new", [("user", .str "2"), ("pass", .str "1")])] :=
  C16_correlation_is_idempotent latinLetter [("a", .str "1"), ("b", .str "2")]
    [⟨some (.str "((a))"), some (.str "((new.user))"), ["x"]⟩,
      ⟨some (.str "((a))"), some (.str "((new.pass))"), ["y"]⟩,
      ⟨some (.str "((b))"), some (.str "((new.user))"), ["z"]⟩]
    ⟨[], []⟩ ⟨[("new", [("user", .str "2"), ("pass", .str "1")])], []⟩ rfl

/-! ## Lemmas on the write loop -/

/-- A dry run visits every record and writes nothing. -/
theorem writeLoop_dry (cmd : Command) (sink : Sink) (hdry : cmd.DryRun = true) :
    ∀ (vv ws : List (String × Fields)) (log : List Event),
      writeLoop cmd sink vv ws log =
        ⟨.ok, ws, log ++ vv.map (fun e => Event.wouldWrite e.1 (cmd.paramPath e.1))⟩
  | [], ws, log => by simp [writeLoop]
  | (param, fields) :: vv, ws, log => by
    have ih := writeLoop_dry cmd sink hdry vv ws
      (log ++ [Event.wouldWrite param (cmd.paramPath param)])
    rw [List.append_assoc] at ih
    rw [writeLoop]
    simp only [hdry, if_true]
    exact ih

/-- A live run whose sink never fails writes every record, in order. -/
theorem writeLoop_live (cmd : Command) (sink : Sink) (hdry : cmd.DryRun = false)
    (hsink : ∀ ws path fields, sink ws path fields = none) :
    ∀ (vv ws : List (String × Fields)) (log : List Event),
      writeLoop cmd sink vv ws log =
        ⟨.ok, ws ++ vv.map (fun e => (cmd.paramPath e.1, e.2)),
          log ++ vv.map (fun e => Event.writing e.1 (cmd.paramPath e.1))⟩
  | [], ws, log => by simp [writeLoop]
  | (param, fields) :: vv, ws, log => by
    have ih := writeLoop_live cmd sink hdry hsink vv (ws ++ [(cmd.paramPath param, fields)])
      (log ++ [Event.writing param (cmd.paramPath param)])
    rw [List.append_assoc, List.append_assoc] at ih
    rw [writeLoop]
    simp only [hdry, hsink]
    exact ih

theorem keys_mapSet {α : Type} (k : String) (v : α) :
    ∀ m : List (String × α),
      (mapSet m k v).map Prod.fst =
        if k ∈ m.map Prod.fst then m.map Prod.fst else m.map Prod.fst ++ [k]
  | [] => by simp [mapSet]
  | (k1, v1) :: m => by
    by_cases hk : k1 = k
    · simp [mapSet, hk]
    · have hk2 : ¬ k = k1 := fun e => hk e.symm
      simp only [mapSet, if_neg hk, List.map_cons, keys_mapSet k v m, List.mem_cons, hk2,
        false_or]
      split_ifs <;> simp

theorem nodup_keys_mapSet {α : Type} (k : String) (v : α) (m : List (String × α))
    (h : (m.map Prod.fst).Nodup) : ((mapSet m k v).map Prod.fst).Nodup := by
  rw [keys_mapSet]
  split_ifs with hk
  · exact h
  · exact List.Nodup.append h (List.nodup_singleton k) (by
      intro x hx hx2
      rw [List.mem_singleton] at hx2
      exact hk (hx2 ▸ hx))

theorem nodup_keys_storeAll :
    ∀ (ts : List Target) (vv : VaultValues), (vv.map Prod.fst).Nodup →
      ((storeAll ts vv).map Prod.fst).Nodup
  | [], _, h => h
  | t :: ts, vv, h => by
    apply nodup_keys_storeAll ts
    unfold storeField
    cases mapGet vv t.1 <;> exact nodup_keys_mapSet _ _ _ h

theorem mapGet_of_mem_nodup {α : Type} (k : String) (v : α) :
    ∀ m : List (String × α), (m.map Prod.fst).Nodup → (k, v) ∈ m → mapGet m k = some v
  | [], _, h => by simp at h
  | (k1, v1) :: m, hn, h => by
    rw [List.map_cons, List.nodup_cons] at hn
    rcases List.mem_cons.mp h with h1 | h1
    · injection h1 with h2 h3
      simp [mapGet, h2, h3]
    · have hk : ¬ k1 = k := by
        intro e
        apply hn.1
        rw [e]
        exact List.mem_map.mpr ⟨(k, v), h1, rfl⟩
      simp only [mapGet, if_neg hk]
      exact mapGet_of_mem_nodup k v m hn.2 h1

/-- A character of the ASCII part of the class is in the class for every letter
table. -/
theorem isNameChar_of_ascii (pL : Char → Bool) (c : Char)
    (h : (c == '-' || c == '.' || isWordChar c) = true) : isNameChar pL c = true := by
  unfold isNameChar
  rw [h]
  rfl

/-- The pattern on a text that is exactly one placeholder. -/
theorem findSubmatch_placeholder (pL : Char → Bool) (name : List Char) (hne : name ≠ [])
    (hcs : ∀ c ∈ name, isNameChar pL c = true) :
    findSubmatch pL ('(' :: '(' :: (name ++ [')', ')'])) = some name :=
  findSubmatch_of_matchHere pL _ name (by
    rw [matchHere_open]
    exact matchGroup_append pL [] (matchName_close_none pL) name hne hcs)

/-- The end-to-end scenario for every letter table: the pass over the diff from
`"((old-name))"` to `"((new-name.user))"` with the parameter `old-name: "admin"`. -/
theorem scenario_correlate (pL : Char → Bool) (path : List String) :
    correlate pL [("old-name", .str "admin")] ⟨[], []⟩
      [⟨some (.str "((old-name))"), some (.str "((new-name.user))"), path⟩] =
      .ok ⟨[("new-name", [("user", .str "admin")])], []⟩ := by
  have hA : FindStringSubmatch pL "((old-name))" = some ("((old-name))", "old-name") := by
    unfold FindStringSubmatch
    have h := findSubmatch_placeholder pL "old-name".data (by decide)
      (fun c hc => isNameChar_of_ascii pL c (by revert c; decide))
    have e : "((old-name))".data = '(' :: '(' :: ("old-name".data ++ [')', ')']) := by decide
    rw [e, h]
    rfl
  have hB : FindStringSubmatch pL "((new-name.user))" =
      some ("((new-name.user))", "new-name.user") := by
    unfold FindStringSubmatch
    have h := findSubmatch_placeholder pL "new-name.user".data (by decide)
      (fun c hc => isNameChar_of_ascii pL c (by revert c; decide))
    have e : "((new-name.user))".data =
        '(' :: '(' :: ("new-name.user".data ++ [')', ')']) := by decide
    rw [e, h]
    rfl
  rw [correlate, processDiff_both pL _ _ _ "((old-name))" "((new-name.user))" _ _ rfl rfl hA hB]
  have hv : mapGet [("old-name", ConfigNode.str "admin")]
      (("((old-name))", "old-name") : String × String).2 = some (.str "admin") := by
    simp [mapGet]
  have hd : deriveNames (("((new-name.user))", "new-name.user") : String × String).2 =
      ("new-name", "user") := by decide
  rw [hv, hd]
  rfl

/-- C17: with dry-run off and a sink that does not fail, a run whose pass ends
with the accumulator `st.vaultValues` ends well and issues exactly the writes
`(paramPath secretName, record)` of the records of that accumulator, one per
secret name (the names are distinct and each record is the one the name maps
to). In particular the diff from `"((old-name))"` to `"((new-name.user))"` with
the parameter `old-name: "admin"` gives the accumulator
`new-name: user: "admin"` and the single write of the fields `user: "admin"` to
`paramPath "new-name"`, which is `prefix/team/pipeline/new-name` for a clean
rooted prefix, plain team and pipeline names and `new-name` not team-scoped. -/
theorem C17_one_write_per_secret (pL : Char → Bool) (cmd : Command)
    (params : List (String × ConfigNode)) (sink : Sink) (diffs : List Diff) (st : State)
    (hdry : cmd.DryRun = false) (hsink : ∀ ws path fields, sink ws path fields = none)
    (h : correlate pL params ⟨[], []⟩ diffs = .ok st) :
    ((Execute pL cmd (.map params) sink diffs).exit = .ok ∧
      (Execute pL cmd (.map params) sink diffs).writes =
        st.vaultValues.map (fun e => (cmd.paramPath e.1, e.2)) ∧
      (st.vaultValues.map Prod.fst).Nodup ∧
      (∀ secretName fields, (secretName, fields) ∈ st.vaultValues ↔
        mapGet st.vaultValues secretName = some fields)) ∧
    (∀ path : List String,
      correlate pL [("old-name", .str "admin")] ⟨[], []⟩
        [⟨some (.str "((old-name))"), some (.str "((new-name.user))"), path⟩] =
        .ok ⟨[("new-name", [("user", .str "admin")])], []⟩ ∧
      (Execute pL cmd (.map [("old-name", .str "admin")]) sink
        [⟨some (.str "((old-name))"), some (.str "((new-name.user))"), path⟩]).writes =
        [(cmd.paramPath "new-name", [("user", .str "admin")])]) ∧
    (cleanRooted cmd.PathPrefix = true → plainName cmd.TeamName = true →
      plainName cmd.PipelineName = true → "new-name" ∉ cmd.TeamParams →
      cmd.paramPath "new-name" =
        cmd.PathPrefix ++ "/" ++ cmd.TeamName ++ "/" ++ cmd.PipelineName ++ "/" ++
          "new-name") := by
  have hrun : ∀ (ps : List (String × ConfigNode)) (ds : List Diff) (s1 : State),
      correlate pL ps ⟨[], []⟩ ds = .ok s1 →
      Execute pL cmd (.map ps) sink ds =
        ⟨.ok, s1.vaultValues.map (fun e => (cmd.paramPath e.1, e.2)),
          s1.log ++ s1.vaultValues.map (fun e => Event.writing e.1 (cmd.paramPath e.1))⟩ := by
    intro ps ds s1 h1
    unfold Execute
    simp only [ConfigNode.Value]
    rw [h1]
    simp only
    rw [writeLoop_live cmd sink hdry hsink]
    simp
  have hnd : (st.vaultValues.map Prod.fst).Nodup := by
    rw [vaultValues_of_correlate_ok pL params _ _ _ h]
    exact nodup_keys_storeAll _ [] (by simp)
  refine ⟨⟨?_, ?_, hnd, ?_⟩, ?_, ?_⟩
  · rw [hrun params diffs st h]
  · rw [hrun params diffs st h]
  · intro name fields
    exact ⟨mapGet_of_mem_nodup name fields _ hnd, mem_of_mapGet name fields _⟩
  · intro path
    refine ⟨scenario_correlate pL path, ?_⟩
    rw [hrun _ _ _ (scenario_correlate pL path)]
    rfl
  · intro hp ht hq hn
    rw [paramPath_of_clean_inputs cmd "new-name" hp ht hq (by decide), if_neg hn]

/-- The end-to-end scenario with the prefix `/concourse`, the team `myteam` and
the pipeline `mypipe`: one write, to `/concourse/myteam/mypipe/new-name`. -/
theorem C17_one_write_per_secret_witness :
    (Execute latinLetter ⟨"/concourse", "myteam", "mypipe", [], false⟩
      (.map [("old-name", .str "admin")]) (fun _ _ _ => none)
      [⟨some (.str "((old-name))"), some (.str "((new-name.user))"), ["a"]⟩]).writes =
      List.map (fun e => ((Command.mk "/concourse" "myteam" "mypipe" [] false).paramPath e.1, e.2))
        [("new-name", [("user", ConfigNode.str "admin")])] ∧
    (Command.mk "/concourse" "myteam" "mypipe" [] false).paramPath "new-name" =
      "/concourse" ++ "/" ++ "myteam" ++ "/" ++ "mypipe" ++ "/" ++ "new-name" :=
  have h := C17_one_write_per_secret latinLetter ⟨"/concourse", "myteam", "mypipe", [], false⟩
    [("old-name", .str "admin")] (fun _ _ _ => none)
    [⟨some (.str "((old-name))"), some (.str "((new-name.user))"), ["a"]⟩]
    ⟨[("new-name", [("user", .str "admin")])], []⟩ rfl (fun _ _ _ => rfl) rfl
  ⟨h.1.2.1, h.2.2 (by decide) (by decide) (by decide) (by decide)⟩

/-- C18: with dry-run on, for every accumulator the write loop issues no write
to the sink and ends well, and the lines it prints name, in the same order,
the `(secret name, path)` pairs that a live run with a sink that does not fail
names and writes to; so a dry run whose pass ends issues no write and ends
well. -/
theorem C18_dry_run_writes_nothing (cmd : Command) (sink : Sink) (vv : VaultValues)
    (hdry : cmd.DryRun = true) :
    ((writeLoop cmd sink vv [] []).writes = [] ∧
      (writeLoop cmd sink vv [] []).exit = .ok ∧
      (writeLoop cmd sink vv [] []).log =
        vv.map (fun e => Event.wouldWrite e.1 (cmd.paramPath e.1))) ∧
    (∀ live : Sink, (∀ ws path fields, live ws path fields = none) →
      (writeLoop cmd sink vv [] []).log.filterMap Event.writePair =
        (writeLoop { cmd with DryRun := false } live vv [] []).log.filterMap
          Event.writePair ∧
      (writeLoop cmd sink vv [] []).log.filterMap Event.writePair =
        vv.map (fun e => (e.1, cmd.paramPath e.1)) ∧
      (writeLoop { cmd with DryRun := false } live vv [] []).writes =
        vv.map (fun e => (cmd.paramPath e.1, e.2))) ∧
    (∀ (pL : Char → Bool) (params : List (String × ConfigNode)) (diffs : List Diff)
      (st : State), correlate pL params ⟨[], []⟩ diffs = .ok st →
      (Execute pL cmd (.map params) sink diffs).writes = [] ∧
      (Execute pL cmd (.map params) sink diffs).exit = .ok) := by
  have hd := writeLoop_dry cmd sink hdry vv [] []
  have hpairs : ∀ l : List (String × Fields),
      (l.map (fun e => Event.wouldWrite e.1 (cmd.paramPath e.1))).filterMap Event.writePair =
        l.map (fun e => (e.1, cmd.paramPath e.1)) := by
    intro l
    induction l with
    | nil => rfl
    | cons e l ih => simp [Event.writePair, ih]
  have hpairs2 : ∀ l : List (String × Fields),
      (l.map (fun e => Event.writing e.1 (cmd.paramPath e.1))).filterMap Event.writePair =
        l.map (fun e => (e.1, cmd.paramPath e.1)) := by
    intro l
    induction l with
    | nil => rfl
    | cons e l ih => simp [Event.writePair, ih]
  refine ⟨⟨?_, ?_, ?_⟩, ?_, ?_⟩
  · rw [hd]
  · rw [hd]
  · rw [hd]
    simp
  · intro live hlive
    have hl := writeLoop_live { cmd with DryRun := false } live rfl hlive vv [] []
    have hpath : ∀ name, Command.paramPath { cmd with DryRun := false } name =
        cmd.paramPath name := fun _ => rfl
    simp only [hpath] at hl
    refine ⟨?_, ?_, ?_⟩
    · rw [hd, hl]
      show List.filterMap Event.writePair ([] ++ _) = List.filterMap Event.writePair ([] ++ _)
      rw [List.nil_append, List.nil_append, hpairs, hpairs2]
    · rw [hd]
      show List.filterMap Event.writePair ([] ++ _) = _
      rw [List.nil_append, hpairs]
    · rw [hl]
      rfl
  · intro pL params diffs st h
    unfold Execute
    simp only [ConfigNode.Value]
    rw [h]
    simp only
    rw [writeLoop_dry cmd sink hdry]
    exact ⟨rfl, rfl⟩

/-- The end-to-end scenario with dry-run on and a sink that would fail every
write: no write, a good end, and the line that names `new-name` and its path. -/
theorem C18_dry_run_writes_nothing_witness :
    (writeLoop ⟨"/concourse", "myteam", "mypipe", [], true⟩ (fun _ _ _ => some "down")
      [("new-name", [("user", ConfigNode.str "admin")])] [] []).writes = [] ∧
    (writeLoop ⟨"/concourse", "myteam", "mypipe", [], true⟩ (fun _ _ _ => some "down")
      [("new-name", [("user", ConfigNode.str "admin")])] [] []).exit = .ok ∧
    (writeLoop ⟨"/concourse", "myteam", "mypipe", [], true⟩ (fun _ _ _ => some "down")
      [("new-name", [("user", ConfigNode.str "admin")])] [] []).log =
      List.map (fun e => Event.wouldWrite e.1
        ((Command.mk "/concourse" "myteam" "mypipe" [] true).paramPath e.1))
        [("new-name", [("user", ConfigNode.str "admin")])] :=
  (C18_dry_run_writes_nothing ⟨"/concourse", "myteam", "mypipe", [], true⟩
    (fun _ _ _ => some "down") [("new-name", [("user", .str "admin")])] rfl).1

/-! ## Strings that hold a placeholder without being one -/

/-- A placeholder string in the strict sense is one in which extraction finds
its name: the strict reading is a special case of what the code acts on. -/
theorem FindStringSubmatch_of_isPlaceholder (pL : Char → Bool) (s : String)
    (h : isPlaceholder pL s = true) :
    ∃ g, FindStringSubmatch pL s = some (s, ⟨g⟩) := by
  unfold isPlaceholder at h
  cases hm : matchHere pL s.data with
  | none => rw [hm] at h; cases h
  | some g =>
    rw [hm] at h
    have hs : s.data = '(' :: '(' :: (g ++ [')', ')']) := by simpa using h
    refine ⟨g, ?_⟩
    unfold FindStringSubmatch
    rw [findSubmatch_of_matchHere pL _ g hm, Option.map_some']
    exact congrArg some (Prod.ext (String.ext hs.symm) rfl)

/-- The strict reading on samples: `((a))` and `((!a.b))` are placeholder
strings, an empty reference and two references in a row are not. -/
theorem isPlaceholder_samples :
    isPlaceholder latinLetter "((a))" = true ∧
    isPlaceholder latinLetter "((!a.b))" = true ∧
    isPlaceholder latinLetter "(())" = false ∧
    isPlaceholder latinLetter "((a))((b))" = false := by
  decide

/-- C11, as stated, fails: neither `"x((a))y"` nor `"y((b))z"` is a placeholder
string, they only hold one; yet with the parameter `a: "v"` the loop body on the
diff from the first to the second stores `b.value`, which the empty accumulator
did not hold. -/
theorem C11_counterexample :
    isPlaceholder latinLetter "x((a))y" = false ∧
    isPlaceholder latinLetter "y((b))z" = false ∧
    processDiff latinLetter [("a", .str "v")] ⟨[], []⟩
        ⟨some (.str "x((a))y"), some (.str "y((b))z"), ["k"]⟩ =
      .ok ⟨[("b", [("value", .str "v")])], []⟩ ∧
    VaultValues.entry [("b", [("value", ConfigNode.str "v")])] "b" "value" ≠
      VaultValues.entry [] "b" "value" :=
  ⟨by decide, by decide, rfl, by simp [VaultValues.entry, mapGet]⟩

/-- C13, as stated, fails: after the single diff from `"x((a))y"` to
`"y((b))z"`, with the parameter `a: "v"`, the accumulator holds `b.value`, and
the only diff processed has no side that is a placeholder string. -/
theorem C13_counterexample :
    correlate latinLetter [("a", .str "v")] ⟨[], []⟩
        (List.take 1 [⟨some (.str "x((a))y"), some (.str "y((b))z"), ["k"]⟩]) =
      .ok ⟨[("b", [("value", .str "v")])], []⟩ ∧
    VaultValues.entry [("b", [("value", ConfigNode.str "v")])] "b" "value" =
      some (.str "v") ∧
    isPlaceholder latinLetter "x((a))y" = false ∧
    isPlaceholder latinLetter "y((b))z" = false :=
  ⟨rfl, rfl, by decide, by decide⟩

end Vaultchuck
